import Mathlib

/-!
# Verification of the ChronoData structure/date/codec core

A shallow embedding of the schema-driven GEDCOM v7 structure-validation and
text-encoding engine of the ChronoData repository.  The repository ships its
specification data (the `DATE` structure definition, the `_DATELIST` extension
structure and the `cal-_MYGREGORIAN` extension calendar) as YAML files; those
data items are embedded verbatim below.  The operational components (registry
loader, tree builder, date parser, encoder/decoder) are modelled from the
design specification, since their implementation is not part of the data
files; every such definition carries a doc comment saying so.
-/

deriving instance DecidableEq for Except

namespace ChronoData

/-! ## Character-list utilities

Splitting and joining on a separator character, decimal numerals, and the
doubling escape for the `@` character used by the wire format. -/

/-- Split a character list at every occurrence of `sep`.  Always returns a
nonempty list of separator-free chunks. -/
def splitCh (sep : Char) : List Char → List (List Char)
  | [] => [[]]
  | c :: rest =>
    if c = sep then [] :: splitCh sep rest
    else (c :: (splitCh sep rest).headI) :: (splitCh sep rest).tail

/-- Join chunks with `sep` between consecutive chunks. -/
def joinCh (sep : Char) : List (List Char) → List Char
  | [] => []
  | [t] => t
  | t :: u :: ts => t ++ sep :: joinCh sep (u :: ts)

theorem splitCh_ne_nil (sep : Char) (l : List Char) : splitCh sep l ≠ [] := by
  cases l with
  | nil => simp [splitCh]
  | cons c rest =>
    simp only [splitCh]
    split <;> simp

theorem splitCh_cons_of_ne {sep c : Char} (rest : List Char) (hc : c ≠ sep) :
    splitCh sep (c :: rest) =
      (c :: (splitCh sep rest).headI) :: (splitCh sep rest).tail := by
  simp [splitCh, hc]

theorem joinCh_splitCh (sep : Char) (l : List Char) :
    joinCh sep (splitCh sep l) = l := by
  induction l with
  | nil => rfl
  | cons c rest ih =>
    by_cases hc : c = sep
    · simp only [splitCh, if_pos hc]
      cases h : splitCh sep rest with
      | nil => exact absurd h (splitCh_ne_nil sep rest)
      | cons t ts =>
        rw [h] at ih
        rw [joinCh]
        simp [hc, ih]
    · simp only [splitCh, if_neg hc]
      cases h : splitCh sep rest with
      | nil => exact absurd h (splitCh_ne_nil sep rest)
      | cons t ts =>
        rw [h] at ih
        simp only [List.headI, List.tail_cons]
        cases ts with
        | nil =>
          rw [joinCh] at ih ⊢
          simp [ih]
        | cons u us =>
          rw [joinCh] at ih ⊢
          simp only [List.cons_append] at ih ⊢
          simp [ih]

theorem not_mem_of_mem_splitCh {sep : Char} :
    ∀ {l t : List Char}, t ∈ splitCh sep l → sep ∉ t := by
  intro l
  induction l with
  | nil =>
    intro t ht
    simp [splitCh] at ht
    subst ht; simp
  | cons c rest ih =>
    intro t ht
    simp only [splitCh] at ht
    split at ht
    · rcases List.mem_cons.mp ht with h | h
      · subst h; simp
      · exact ih h
    · rename_i hc
      cases hsp : splitCh sep rest with
      | nil => exact absurd hsp (splitCh_ne_nil sep rest)
      | cons u us =>
        rw [hsp] at ht
        simp only [List.headI, List.tail] at ht
        rcases List.mem_cons.mp ht with h | h
        · subst h
          intro hmem
          rcases List.mem_cons.mp hmem with h1 | h1
          · exact hc h1.symm
          · have hu : u ∈ splitCh sep rest := by
              rw [hsp]; exact List.mem_cons_self u us
            exact ih hu h1
        · have hus : t ∈ splitCh sep rest := by
            rw [hsp]; exact List.mem_cons_of_mem u h
          exact ih hus

theorem splitCh_no_sep {sep : Char} {t : List Char} (h : sep ∉ t) :
    splitCh sep t = [t] := by
  induction t with
  | nil => rfl
  | cons c rest ih =>
    have hc : c ≠ sep := fun hc => h (hc ▸ List.mem_cons_self c rest)
    have hrest : sep ∉ rest := fun hm => h (List.mem_cons_of_mem c hm)
    rw [splitCh_cons_of_ne rest hc, ih hrest]
    simp

theorem splitCh_append_cons {sep : Char} {t : List Char} (h : sep ∉ t)
    (r : List Char) : splitCh sep (t ++ sep :: r) = t :: splitCh sep r := by
  induction t with
  | nil => simp [splitCh]
  | cons c rest ih =>
    have hc : c ≠ sep := fun hc => h (hc ▸ List.mem_cons_self c rest)
    have hrest : sep ∉ rest := fun hm => h (List.mem_cons_of_mem c hm)
    rw [List.cons_append, splitCh_cons_of_ne _ hc, ih hrest]
    simp

theorem splitCh_joinCh {sep : Char} {ts : List (List Char)} (hne : ts ≠ [])
    (h : ∀ t ∈ ts, sep ∉ t) : splitCh sep (joinCh sep ts) = ts := by
  induction ts with
  | nil => exact absurd rfl hne
  | cons t us ih =>
    cases us with
    | nil =>
      rw [joinCh]
      exact splitCh_no_sep (h t (List.mem_cons_self t []))
    | cons u vs =>
      rw [joinCh, splitCh_append_cons (h t (List.mem_cons_self t _))]
      congr 1
      exact ih (by simp) (fun x hx => h x (List.mem_cons_of_mem t hx))

theorem mem_of_mem_splitCh {sep c : Char} :
    ∀ {l t : List Char}, c ∈ t → t ∈ splitCh sep l → c ∈ l := by
  intro l
  induction l with
  | nil =>
    intro t hc ht
    simp [splitCh] at ht
    subst ht; simp at hc
  | cons d rest ih =>
    intro t hc ht
    simp only [splitCh] at ht
    split at ht
    · rcases List.mem_cons.mp ht with h | h
      · subst h; simp at hc
      · exact List.mem_cons_of_mem d (ih hc h)
    · cases hsp : splitCh sep rest with
      | nil => exact absurd hsp (splitCh_ne_nil sep rest)
      | cons u us =>
        rw [hsp] at ht
        simp only [List.headI, List.tail] at ht
        rcases List.mem_cons.mp ht with h | h
        · subst h
          rcases List.mem_cons.mp hc with h1 | h1
          · exact h1 ▸ List.mem_cons_self d rest
          · have hu : u ∈ splitCh sep rest := by
              rw [hsp]; exact List.mem_cons_self u us
            exact List.mem_cons_of_mem d (ih h1 hu)
        · have htr : t ∈ splitCh sep rest := by
            rw [hsp]; exact List.mem_cons_of_mem u h
          exact List.mem_cons_of_mem d (ih hc htr)

theorem mem_joinCh {sep c : Char} :
    ∀ {ts : List (List Char)}, c ∈ joinCh sep ts → c = sep ∨ ∃ t ∈ ts, c ∈ t := by
  intro ts
  induction ts with
  | nil => intro h; simp [joinCh] at h
  | cons t us ih =>
    intro h
    cases us with
    | nil =>
      rw [joinCh] at h
      exact Or.inr ⟨t, List.mem_cons_self t [], h⟩
    | cons u vs =>
      rw [joinCh] at h
      rcases List.mem_append.mp h with h1 | h1
      · exact Or.inr ⟨t, List.mem_cons_self t _, h1⟩
      · rcases List.mem_cons.mp h1 with h2 | h2
        · exact Or.inl h2
        · rcases ih h2 with h3 | ⟨v, hv, hcv⟩
          · exact Or.inl h3
          · exact Or.inr ⟨v, List.mem_cons_of_mem t hv, hcv⟩

theorem joinCh_eq_nil {sep : Char} {ts : List (List Char)}
    (h : joinCh sep ts = []) : ts = [] ∨ ts = [[]] := by
  cases ts with
  | nil => exact Or.inl rfl
  | cons t us =>
    cases us with
    | nil =>
      rw [joinCh] at h
      subst h
      exact Or.inr rfl
    | cons u vs =>
      rw [joinCh] at h
      simp at h

theorem splitCh_eq_single_nil {sep : Char} {l : List Char}
    (h : splitCh sep l = [[]]) : l = [] := by
  have := joinCh_splitCh sep l
  rw [h] at this
  simpa [joinCh] using this.symm

/-! ### Decimal numerals

Canonical decimal rendering (no leading zeros) and its parser, used for the
level numbers of the wire format. -/

/-- The digit character for `n < 10`. -/
def digitChar (n : Nat) : Char := Char.ofNat (48 + n)

/-- Fueled worker producing the decimal digits of `n`, most significant first. -/
def toDecGo : Nat → Nat → List Char
  | 0, _ => []
  | fuel + 1, n =>
    if n < 10 then [digitChar n]
    else toDecGo fuel (n / 10) ++ [digitChar (n % 10)]

/-- Canonical decimal numeral of a natural number. -/
def toDecList (n : Nat) : List Char := toDecGo (n + 1) n

/-- Numeric value of a digit character, if it is one. -/
def digitVal (c : Char) : Option Nat :=
  if 48 ≤ c.toNat ∧ c.toNat ≤ 57 then some (c.toNat - 48) else none

/-- Accumulating decimal parser over a digit list. -/
def parseDecGo : List Char → Nat → Option Nat
  | [], acc => some acc
  | c :: cs, acc =>
    match digitVal c with
    | some d => parseDecGo cs (acc * 10 + d)
    | none => none

/-- Parse a nonempty all-digit character list as a natural number. -/
def parseDec : List Char → Option Nat
  | [] => none
  | c :: cs => parseDecGo (c :: cs) 0

theorem toDecGo_fuel : ∀ fuel1 fuel2 n : Nat, n < fuel1 → n < fuel2 →
    toDecGo fuel1 n = toDecGo fuel2 n := by
  intro fuel1
  induction fuel1 with
  | zero => intro fuel2 n h1; omega
  | succ f1 ih =>
    intro fuel2 n h1 h2
    cases fuel2 with
    | zero => omega
    | succ f2 =>
      rw [toDecGo, toDecGo]
      by_cases h : n < 10
      · simp [h]
      · simp only [if_neg h]
        rw [ih f2 (n / 10) (by omega) (by omega)]

theorem toDecList_eq (n : Nat) :
    toDecList n = if n < 10 then [digitChar n]
      else toDecList (n / 10) ++ [digitChar (n % 10)] := by
  rw [toDecList, toDecGo]
  by_cases h : n < 10
  · simp [h]
  · simp only [if_neg h]
    rw [toDecList, toDecGo_fuel n (n / 10 + 1) (n / 10) (by omega) (by omega)]

theorem toDecList_ne_nil (n : Nat) : toDecList n ≠ [] := by
  rw [toDecList_eq]
  split <;> simp

theorem mem_toDecList_digit {n : Nat} {c : Char} (h : c ∈ toDecList n) :
    ∃ d, d < 10 ∧ c = digitChar d := by
  induction n using Nat.strong_induction_on with
  | _ n ih =>
    rw [toDecList_eq] at h
    by_cases hn : n < 10
    · rw [if_pos hn] at h
      simp at h
      exact ⟨n, hn, h⟩
    · rw [if_neg hn] at h
      rcases List.mem_append.mp h with h1 | h1
      · exact ih (n / 10) (by omega) h1
      · simp at h1
        exact ⟨n % 10, by omega, h1⟩

theorem digitVal_digitChar {d : Nat} (h : d < 10) :
    digitVal (digitChar d) = some d := by
  interval_cases d <;> decide

theorem parseDecGo_append (a b : List Char) (acc : Nat) :
    parseDecGo (a ++ b) acc =
      match parseDecGo a acc with
      | some m => parseDecGo b m
      | none => none := by
  induction a generalizing acc with
  | nil => simp [parseDecGo]
  | cons c cs ih =>
    rw [List.cons_append, parseDecGo, parseDecGo]
    cases digitVal c with
    | none => rfl
    | some d => exact ih (acc * 10 + d)

theorem parseDecGo_toDecList (n : Nat) : ∀ acc : Nat,
    parseDecGo (toDecList n) acc = some (acc * 10 ^ (toDecList n).length + n) := by
  induction n using Nat.strong_induction_on with
  | _ n ih =>
    intro acc
    rw [toDecList_eq]
    by_cases hn : n < 10
    · rw [if_pos hn]
      simp only [parseDecGo, digitVal_digitChar hn]
      norm_num
    · rw [if_neg hn]
      rw [parseDecGo_append]
      rw [ih (n / 10) (by omega) acc]
      simp only [parseDecGo, digitVal_digitChar (Nat.mod_lt n (by norm_num))]
      congr 1
      have h1 : n / 10 * 10 + n % 10 = n := by omega
      have h2 : (acc * 10 ^ (toDecList (n / 10)).length + n / 10) * 10 + n % 10 =
          acc * (10 ^ (toDecList (n / 10)).length * 10) + (n / 10 * 10 + n % 10) := by
        ring
      rw [h2, h1]
      have h3 : (toDecList (n / 10) ++ [digitChar (n % 10)]).length =
          (toDecList (n / 10)).length + 1 := by
        simp
      rw [h3, pow_succ]

theorem parseDec_toDecList (n : Nat) : parseDec (toDecList n) = some n := by
  cases h : toDecList n with
  | nil => exact absurd h (toDecList_ne_nil n)
  | cons c cs =>
    rw [parseDec, ← h, parseDecGo_toDecList n 0]
    simp

/-! ### The `@` doubling escape -/

/-- Double every `@` character (the escape applied by the encoder to payload
text). -/
def escapeAt : List Char → List Char
  | [] => []
  | c :: rest =>
    if c = '@' then '@' :: '@' :: escapeAt rest else c :: escapeAt rest

/-- Collapse doubled `@` characters (decoder side of the escape).  A lone `@`
is preserved as is; well-formed input never contains one. -/
def unescapeAt : List Char → List Char
  | [] => []
  | [c] => [c]
  | c :: d :: rest =>
    if c = '@' ∧ d = '@' then '@' :: unescapeAt rest
    else c :: unescapeAt (d :: rest)

/-- Check that every `@` in the list occurs as part of a doubled pair. -/
def wellEscaped : List Char → Bool
  | [] => true
  | [c] => c ≠ '@'
  | c :: d :: rest =>
    if c = '@' then
      if d = '@' then wellEscaped rest else false
    else wellEscaped (d :: rest)

theorem unescapeAt_escapeAt (l : List Char) : unescapeAt (escapeAt l) = l := by
  induction l with
  | nil => rfl
  | cons c rest ih =>
    rw [escapeAt]
    by_cases hc : c = '@'
    · subst hc
      rw [if_pos rfl]
      rw [unescapeAt]
      simp [ih]
    · rw [if_neg hc]
      cases h : escapeAt rest with
      | nil =>
        rw [h] at ih
        rw [unescapeAt]
        simp [← ih, unescapeAt]
      | cons d e2 =>
        rw [h] at ih
        rw [unescapeAt, if_neg (by simp [hc]), ih]

theorem wellEscaped_escapeAt (l : List Char) : wellEscaped (escapeAt l) = true := by
  induction l with
  | nil => rfl
  | cons c rest ih =>
    rw [escapeAt]
    by_cases hc : c = '@'
    · subst hc
      rw [if_pos rfl, wellEscaped, if_pos rfl, if_pos rfl]
      exact ih
    · rw [if_neg hc]
      cases h : escapeAt rest with
      | nil =>
        rw [wellEscaped]
        simpa using hc
      | cons d e2 =>
        rw [wellEscaped, if_neg hc, ← h]
        exact ih

theorem escapeAt_unescapeAt : ∀ l : List Char, wellEscaped l = true →
    escapeAt (unescapeAt l) = l
  | [], _ => rfl
  | [c], h => by
    rw [wellEscaped] at h
    have hc : c ≠ '@' := by simpa using h
    rw [unescapeAt, escapeAt, if_neg hc, escapeAt]
  | c :: d :: rest, h => by
    rw [wellEscaped] at h
    by_cases hc : c = '@'
    · subst hc
      rw [if_pos rfl] at h
      by_cases hd : d = '@'
      · subst hd
        rw [if_pos rfl] at h
        rw [unescapeAt, if_pos ⟨rfl, rfl⟩, escapeAt, if_pos rfl,
          escapeAt_unescapeAt rest h]
      · rw [if_neg hd] at h
        simp at h
    · rw [if_neg hc] at h
      rw [unescapeAt, if_neg (by simp [hc]), escapeAt, if_neg hc,
        escapeAt_unescapeAt (d :: rest) h]

theorem mem_of_mem_unescapeAt {c : Char} :
    ∀ {l : List Char}, c ∈ unescapeAt l → c ∈ l
  | [], h => by simp [unescapeAt] at h
  | [d], h => by
    rw [unescapeAt] at h
    exact h
  | d :: e :: rest, h => by
    rw [unescapeAt] at h
    split at h
    · rename_i hde
      rcases List.mem_cons.mp h with h1 | h1
      · simp [h1, hde.1]
      · exact List.mem_cons_of_mem _
          (List.mem_cons_of_mem _ (mem_of_mem_unescapeAt h1))
    · rcases List.mem_cons.mp h with h1 | h1
      · exact h1 ▸ List.mem_cons_self _ _
      · exact List.mem_cons_of_mem _ (mem_of_mem_unescapeAt h1)

theorem mem_of_mem_escapeAt {c : Char} :
    ∀ {l : List Char}, c ∈ escapeAt l → c ∈ l := by
  intro l
  induction l with
  | nil => intro h; simp [escapeAt] at h
  | cons d rest ih =>
    intro h
    rw [escapeAt] at h
    by_cases hd : d = '@'
    · subst hd
      rw [if_pos rfl] at h
      rcases List.mem_cons.mp h with h1 | h1
      · exact h1 ▸ List.mem_cons_self _ _
      · rcases List.mem_cons.mp h1 with h2 | h2
        · exact h2 ▸ List.mem_cons_self _ _
        · exact List.mem_cons_of_mem _ (ih h2)
    · rw [if_neg hd] at h
      rcases List.mem_cons.mp h with h1 | h1
      · exact h1 ▸ List.mem_cons_self _ _
      · exact List.mem_cons_of_mem _ (ih h1)

theorem escapeAt_ne_nil {l : List Char} (h : l ≠ []) : escapeAt l ≠ [] := by
  cases l with
  | nil => exact absurd rfl h
  | cons c rest =>
    rw [escapeAt]
    split <;> simp

theorem unescapeAt_ne_nil : ∀ {l : List Char}, l ≠ [] → unescapeAt l ≠ []
  | [], h => absurd rfl h
  | [c], _ => by rw [unescapeAt]; simp
  | c :: d :: rest, _ => by
    rw [unescapeAt]
    split <;> simp

/-- Map a fallible function over a list, failing on the first error. -/
def exceptMapList {α β ε : Type} (f : α → Except ε β) : List α → Except ε (List β)
  | [] => .ok []
  | a :: rest =>
    match f a with
    | .error e => .error e
    | .ok b =>
      match exceptMapList f rest with
      | .error e => .error e
      | .ok bs => .ok (b :: bs)

/-! ## Specification Registry

Data model from §3 of the design: `CardinalityConstraint`, `SpecEntry`,
`Registry`, with the loader `build_registry` and the lookup operations. -/

/-- Maximum of a cardinality constraint: exactly one, or unbounded (the
literal `M` of the specification source). -/
inductive CardMax where
  | one
  | unbounded
deriving DecidableEq, Repr

/-- A cardinality constraint `(min, max)` with `min ∈ {0, 1}` and
`max ∈ {1, unbounded}`. -/
structure CardinalityConstraint where
  min : Nat
  max : CardMax
deriving DecidableEq, Repr

/-- Modelled from the spec: the cardinality-string parser used by
`build_registry` (§4.1, §6).  A cardinality string has the shape
`"{min:max}"` where `min` is `0` or `1` and `max` is `1` or the literal `M`
meaning unbounded; anything else does not parse to a valid (min, max) pair. -/
def parseCardinalityChars : List Char → Option CardinalityConstraint
  | [a, m, colon, x, b] =>
    if a = '{' ∧ colon = ':' ∧ b = '}' then
      match (if m = '0' then some 0 else if m = '1' then some 1 else none),
            (if x = '1' then some CardMax.one
             else if x = 'M' then some CardMax.unbounded else none) with
      | some mn, some mx => some ⟨mn, mx⟩
      | _, _ => none
    else none
  | _ => none

/-- Modelled from the spec: cardinality parsing on strings. -/
def parseCardinality (s : String) : Option CardinalityConstraint :=
  parseCardinalityChars s.data

/-- A registry entry for one tag: its permitted substructures as an ordered
mapping from child tag to cardinality constraint. -/
structure SpecEntry where
  tag : String
  substructures : List (String × CardinalityConstraint)
deriving DecidableEq, Repr

/-- The specification registry: an ordered table of entries, read-only after
construction. -/
abbrev Registry := List SpecEntry

/-- Load errors of `build_registry` (§4.1). -/
inductive SpecLoadError where
  | badCardinality (s : String)
  | duplicateTag
deriving DecidableEq, Repr

/-- A raw registry entry as found in the specification source (§6): the tag
and the `substructures` mapping of child tag/URI to cardinality string. -/
structure RawEntry where
  tag : String
  substructures : List (String × String)
deriving DecidableEq, Repr

/-- The short tag of a specification URI: its final `/`-separated segment. -/
def tagOfUri (u : String) : String :=
  String.mk ((splitCh '/' u.data).getLastD [])

/-- Modelled from the spec: translate one raw `substructures` mapping, failing
on any cardinality string that does not parse (§4.1). -/
def buildSubs : List (String × String) →
    Except SpecLoadError (List (String × CardinalityConstraint))
  | [] => .ok []
  | (k, c) :: rest =>
    match parseCardinality c with
    | none => .error (.badCardinality c)
    | some cc =>
      match buildSubs rest with
      | .error e => .error e
      | .ok tail => .ok ((tagOfUri k, cc) :: tail)

/-- Modelled from the spec: translate the raw entries one by one. -/
def buildEntries : List RawEntry → Except SpecLoadError Registry
  | [] => .ok []
  | r :: rest =>
    match buildSubs r.substructures with
    | .error e => .error e
    | .ok subs =>
      match buildEntries rest with
      | .error e => .error e
      | .ok tail => .ok (⟨r.tag, subs⟩ :: tail)

/-- Modelled from the spec: `build_registry(spec_data) -> Registry` (§4.1).
Fails with `SpecLoadError` on a duplicate tag across the merged sources or on
a cardinality string that does not parse to a valid (min, max) pair. -/
def build_registry (data : List RawEntry) : Except SpecLoadError Registry :=
  if (data.map RawEntry.tag).Nodup then buildEntries data
  else .error .duplicateTag

/-- Modelled from the spec: `lookup(tag)` (§4.1). -/
def lookup (reg : Registry) (tag : String) : Option SpecEntry :=
  reg.find? (fun e => e.tag = tag)

/-- Lookup in an ordered tag-to-cardinality mapping. -/
def assocLookup : List (String × CardinalityConstraint) → String →
    Option CardinalityConstraint
  | [], _ => none
  | (k, c) :: rest, tag => if k = tag then some c else assocLookup rest tag

/-- Modelled from the spec: `permitted_children(tag)` (§4.1), the ordered
substructure mapping of the tag's entry, empty when the tag is unknown. -/
def permitted_children (reg : Registry) (tag : String) :
    List (String × CardinalityConstraint) :=
  match lookup reg tag with
  | some e => e.substructures
  | none => []

/-- Modelled from the spec: `is_extension_tag(tag)` (§4.1), recognized by the
leading-underscore naming convention, not by registry membership. -/
def is_extension_tag (t : String) : Bool :=
  match t.data with
  | '_' :: _ => true
  | _ => false

/-! ## Structure tree and builder -/

/-- A structure node: tag, payload text, optional cross-reference identifier,
and the ordered list of child nodes. -/
inductive StructureNode : Type where
  | mk (tag : String) (payload : String) (xref : Option String)
      (children : List StructureNode)

/-- Tag of a node. -/
def StructureNode.tag : StructureNode → String
  | .mk t _ _ _ => t

/-- Payload of a node. -/
def StructureNode.payload : StructureNode → String
  | .mk _ p _ _ => p

/-- Cross-reference identifier of a node, if any. -/
def StructureNode.xref : StructureNode → Option String
  | .mk _ _ x _ => x

/-- Ordered children of a node. -/
def StructureNode.children : StructureNode → List StructureNode
  | .mk _ _ _ c => c

/-- Construction-time errors of the tree builder (§4.3, §7). -/
inductive AttachError where
  | invalidChild (tag : String)
  | cardinalityExceeded (tag : String)
deriving DecidableEq, Repr

/-- Number of children of `children` carrying tag `t`. -/
def countTag (children : List StructureNode) (t : String) : Nat :=
  (children.filter (fun c => c.tag = t)).length

/-- Whether a cardinality constraint still allows a child when `n` such
children already exist. -/
def cardAllows (c : CardinalityConstraint) (n : Nat) : Bool :=
  match c.max with
  | .one => n < 1
  | .unbounded => true

/-- Modelled from the spec: `attach_child(parent, tag, payload, xref?)`
(§4.3).  Fails with `InvalidChildError` when `tag` is absent from
`permitted_children(parent.tag)` and with `CardinalityExceededError` when
adding the child would exceed the declared max for that tag among the
parent's existing children; on success returns the parent with the new child
appended (modelling the in-place attachment of the source design). -/
def attach_child (reg : Registry) (parent : StructureNode) (tag payload : String)
    (xref : Option String) : Except AttachError StructureNode :=
  match assocLookup (permitted_children reg parent.tag) tag with
  | none => .error (.invalidChild tag)
  | some c =>
    if cardAllows c (countTag parent.children tag) then
      .ok (.mk parent.tag parent.payload parent.xref
            (parent.children ++ [.mk tag payload xref []]))
    else .error (.cardinalityExceeded tag)

/-! ## The supplied specification data

The raw entries below embed the `substructures` mappings of the YAML
specification files shipped with the repository: the standard `DATE`
structure (`uri .../v7/DATE`, substructures `PHRASE "{0:1}"` and
`TIME "{0:1}"`) and the `_DATELIST` extension structure (substructures
`PHRASE "{0:1}"` and `TIME "{0:1}"`, superstructure `REPO "{0:M}"`).  The
`REPO` entry records the substructure induced by `_DATELIST`'s
`superstructures` mapping; the `PHRASE`, `TIME` and `FAM` entries are minimal
context entries so that those tags are known to the registry. -/

def gedcomRawData : List RawEntry :=
  [⟨"DATE", [("https://gedcom.io/terms/v7/PHRASE", "{0:1}"),
             ("https://gedcom.io/terms/v7/TIME", "{0:1}")]⟩,
   ⟨"PHRASE", []⟩,
   ⟨"TIME", []⟩,
   ⟨"FAM", [("https://gedcom.io/terms/v7/DATE", "{0:1}")]⟩,
   ⟨"REPO", [("https://github.com/dthaler/gedcom-citations/_DATELIST", "{0:M}")]⟩,
   ⟨"_DATELIST", [("https://gedcom.io/terms/v7/PHRASE", "{0:1}"),
                  ("https://gedcom.io/terms/v7/TIME", "{0:1}")]⟩]

/-- The registry obtained from `gedcomRawData`. -/
def gedcomRegistry : Registry :=
  [⟨"DATE", [("PHRASE", ⟨0, .one⟩), ("TIME", ⟨0, .one⟩)]⟩,
   ⟨"PHRASE", []⟩,
   ⟨"TIME", []⟩,
   ⟨"FAM", [("DATE", ⟨0, .one⟩)]⟩,
   ⟨"REPO", [("_DATELIST", ⟨0, .unbounded⟩)]⟩,
   ⟨"_DATELIST", [("PHRASE", ⟨0, .one⟩), ("TIME", ⟨0, .one⟩)]⟩]

/-! ## Date/Calendar subsystem

Modelled from §4.4 of the design: a token pipeline that resolves one of the
grammar forms (single date, `BEF`/`AFT` range, `BET … AND …`, `FROM … TO …`
period, `ABT`/`CAL`/`EST` approximation), matches month tokens
case-insensitively against the calendar's month table, accepts a trailing
epoch marker only when the calendar permits it, and rejects year 0 under an
epoch-bearing calendar. -/

/-- A month of a calendar: its standard tag and display name. -/
structure GedMonth where
  tag : String
  name : String
deriving DecidableEq, Repr

/-- A calendar: identifier, ordered month table and permitted epoch
markers. -/
structure Calendar where
  id : String
  months : List GedMonth
  epochs : List String
deriving DecidableEq, Repr

/-- Date errors (§7). -/
inductive InvalidDateError where
  | badSyntax
  | unknownMonth (tok : String)
  | badEpoch (tok : String)
  | yearZero
  | periodWithTime
deriving DecidableEq, Repr

/-- Approximation/qualifier kind of a date value (§3). -/
inductive DateQualifier where
  | exact
  | about
  | calculated
  | estimated
  | before
  | after
  | between
  | fromTo
deriving DecidableEq, Repr

/-- A parsed date value (§3). -/
structure DateValue where
  calendarId : String
  year : Int
  month : Option String
  day : Option Nat
  epoch : Option String
  time : Option String
  qualifier : DateQualifier
  phrase : Option String
deriving DecidableEq, Repr

/-- The single-date fields shared by all grammar forms. -/
structure SingleDate where
  day : Option Nat
  month : Option String
  year : Int
  epoch : Option String
deriving DecidableEq, Repr

/-- Case-insensitive equality of month tokens. -/
def eqIgnoreCase (a b : String) : Bool :=
  a.data.map Char.toUpper = b.data.map Char.toUpper

/-- Match a month token case-insensitively against the calendar's month
table, returning the canonical standard tag. -/
def monthLookup (cal : Calendar) (tok : String) : Option String :=
  (cal.months.find? (fun m => eqIgnoreCase m.tag tok)).map GedMonth.tag

/-- Modelled from the spec: parse a year token, rejecting year 0 under an
epoch-bearing calendar (§4.4: "under an epoch-bearing calendar, year 0 never
exists … parsers must reject any year value of 0"). -/
def parseYearTok (cal : Calendar) (tok : String) : Except InvalidDateError Int :=
  match parseDec tok.data with
  | none => .error .badSyntax
  | some y =>
    if cal.epochs ≠ [] ∧ y = 0 then .error .yearZero
    else .ok (Int.ofNat y)

/-- Modelled from the spec: parse the token list of a single date
`[day] [month] year [epoch]` (§4.4).  A final token is taken as an epoch
marker only when the calendar's permitted-epoch list contains it; month
tokens are matched case-insensitively against the month table. -/
def parseSingleDate (cal : Calendar) : List String →
    Except InvalidDateError SingleDate
  | [y] =>
    match parseYearTok cal y with
    | .error e => .error e
    | .ok yr => .ok ⟨none, none, yr, none⟩
  | [a, b] =>
    if b ∈ cal.epochs then
      match parseYearTok cal a with
      | .error e => .error e
      | .ok yr => .ok ⟨none, none, yr, some b⟩
    else
      match monthLookup cal a with
      | none => .error (.unknownMonth a)
      | some m =>
        match parseYearTok cal b with
        | .error e => .error e
        | .ok yr => .ok ⟨none, some m, yr, none⟩
  | [a, b, c] =>
    if c ∈ cal.epochs then
      match monthLookup cal a with
      | none => .error (.unknownMonth a)
      | some m =>
        match parseYearTok cal b with
        | .error e => .error e
        | .ok yr => .ok ⟨none, some m, yr, some c⟩
    else
      match parseDec a.data with
      | none => .error .badSyntax
      | some d =>
        match monthLookup cal b with
        | none => .error (.unknownMonth b)
        | some m =>
          match parseYearTok cal c with
          | .error e => .error e
          | .ok yr => .ok ⟨some d, some m, yr, none⟩
  | [a, b, c, e] =>
    if e ∈ cal.epochs then
      match parseDec a.data with
      | none => .error .badSyntax
      | some d =>
        match monthLookup cal b with
        | none => .error (.unknownMonth b)
        | some m =>
          match parseYearTok cal c with
          | .error e2 => .error e2
          | .ok yr => .ok ⟨some d, some m, yr, some e⟩
    else .error (.badEpoch e)
  | _ => .error .badSyntax

/-- Build a date value from a single-date record and a qualifier; the time
component is absent at parse time and attached later from the `TIME`
substructure. -/
def mkDateValue (cal : Calendar) (q : DateQualifier) (sd : SingleDate) : DateValue :=
  ⟨cal.id, sd.year, sd.month, sd.day, sd.epoch, none, q, none⟩

/-- Split a token list at the first occurrence of the keyword `w`. -/
def splitAtWord (w : String) : List String → Option (List String × List String)
  | [] => none
  | t :: rest =>
    if t = w then some ([], rest)
    else
      match splitAtWord w rest with
      | none => none
      | some (a, b) => some (t :: a, b)

/-- Modelled from the spec: the date grammar dispatch (§4.4) over the
space-separated tokens of a date payload.  The leading keyword selects a
range (`BEF`/`AFT`), a between-form (`BET … AND …`), a period
(`FROM … [TO …]`) or an approximation (`ABT`/`CAL`/`EST`); otherwise the
payload is a single date.  Both dates of a two-date form are parsed and
validated; the date value records the fields of the first. -/
def parseDateTokens (cal : Calendar) : List String →
    Except InvalidDateError DateValue
  | "BEF" :: rest =>
    match parseSingleDate cal rest with
    | .error e => .error e
    | .ok sd => .ok (mkDateValue cal .before sd)
  | "AFT" :: rest =>
    match parseSingleDate cal rest with
    | .error e => .error e
    | .ok sd => .ok (mkDateValue cal .after sd)
  | "ABT" :: rest =>
    match parseSingleDate cal rest with
    | .error e => .error e
    | .ok sd => .ok (mkDateValue cal .about sd)
  | "CAL" :: rest =>
    match parseSingleDate cal rest with
    | .error e => .error e
    | .ok sd => .ok (mkDateValue cal .calculated sd)
  | "EST" :: rest =>
    match parseSingleDate cal rest with
    | .error e => .error e
    | .ok sd => .ok (mkDateValue cal .estimated sd)
  | "BET" :: rest =>
    match splitAtWord "AND" rest with
    | none => .error .badSyntax
    | some (a, b) =>
      match parseSingleDate cal a with
      | .error e => .error e
      | .ok sd =>
        match parseSingleDate cal b with
        | .error e => .error e
        | .ok _ => .ok (mkDateValue cal .between sd)
  | "FROM" :: rest =>
    match splitAtWord "TO" rest with
    | none =>
      match parseSingleDate cal rest with
      | .error e => .error e
      | .ok sd => .ok (mkDateValue cal .fromTo sd)
    | some (a, b) =>
      match parseSingleDate cal a with
      | .error e => .error e
      | .ok sd =>
        match parseSingleDate cal b with
        | .error e => .error e
        | .ok _ => .ok (mkDateValue cal .fromTo sd)
  | toks =>
    match parseSingleDate cal toks with
    | .error e => .error e
    | .ok sd => .ok (mkDateValue cal .exact sd)

/-- Modelled from the spec: parse a date payload string against a calendar
(the RAW_TEXT → TOKENIZED → CALENDAR_RESOLVED part of the pipeline). -/
def parseDatePayload (cal : Calendar) (s : String) :
    Except InvalidDateError DateValue :=
  parseDateTokens cal ((splitCh ' ' s.data).map String.mk)

/-- Whether the qualifier is the period kind (`FROM`/`TO`, the `DatePeriod`
of the specification source). -/
def isPeriodQualifier : DateQualifier → Bool
  | .fromTo => true
  | _ => false

/-- Whether the qualifier is a period or range kind. -/
def isPeriodOrRange : DateQualifier → Bool
  | .fromTo => true
  | .between => true
  | .before => true
  | .after => true
  | _ => false

/-- Modelled from the spec: the VALIDATED stage of the date pipeline.  Per
the `DATE` specification text shipped with the repository, "`TIME` should
not be used with `DatePeriod` but may be used with other date types": a
period-qualified date value carrying a time component is rejected with
`InvalidDateError` here, at validation time. -/
def validateDateValue (d : DateValue) : Except InvalidDateError DateValue :=
  if isPeriodQualifier d.qualifier ∧ d.time.isSome then .error .periodWithTime
  else .ok d

/-- Modelled from the spec: the full date pipeline for a `DATE` structure
with an optional `TIME` substructure payload: parse the date payload, attach
the time component, then validate. -/
def parseDateValueFull (cal : Calendar) (payload : String)
    (time : Option String) : Except InvalidDateError DateValue :=
  match parseDatePayload cal payload with
  | .error e => .error e
  | .ok d => validateDateValue { d with time := time }

/-- The `cal-_MYGREGORIAN` extension calendar shipped with the repository:
twelve months `_MYJAN` … `_MYDEC` and the single permitted epoch marker
`BC`. -/
def myGregorian : Calendar :=
  ⟨"_MYGREGORIAN",
   [⟨"_MYJAN", "My January"⟩, ⟨"_MYFEB", "My February"⟩,
    ⟨"_MYMAR", "My March"⟩, ⟨"_MYAPR", "My April"⟩,
    ⟨"_MYMAY", "My May"⟩, ⟨"_MYJUN", "My June"⟩,
    ⟨"_MYJUL", "My July"⟩, ⟨"_MYAUG", "My August"⟩,
    ⟨"_MYSEP", "My September"⟩, ⟨"_MYOCT", "My October"⟩,
    ⟨"_MYNOV", "My November"⟩, ⟨"_MYDEC", "My December"⟩],
   ["BC"]⟩

/-- Modelled from the calendar specification text: "year *y* BC indicates a
year *y* years before year 1"; with no epoch marker the year denotes itself.
The denoted (astronomical) year of a date value. -/
def denotedYear (d : DateValue) : Int :=
  match d.epoch with
  | some _ => 1 - d.year
  | none => d.year

/-! ## Encoder / Decoder

Modelled from §4.5 of the design: the wire format is one line per structure
of shape `LEVEL [XREF] TAG [PAYLOAD]`.  Payload text containing embedded
newlines is split across newline-preserving continuation (`CONT`) lines at
level+1; the `@` character in payload text is escaped by doubling.  The
decoder is a line scanner plus a stack-style tree builder: a line at level L
attaches under the most recently opened node at level L−1, and decoding
fails with `MalformedLineError` when the level jumps by more than one, a tag
is unknown and not an extension tag, or a continuation line is misplaced. -/

/-- Decode-time errors (§4.5, §7). -/
inductive MalformedLineError where
  | badLine (lc : List Char)
  | badXref (lc : List Char)
  | unknownTag (t : String)
  | levelJump (found allowed : Nat)
  | badContinuation
  | trailingLines
  | rootContinuation
  | outOfFuel
deriving DecidableEq, Repr

/-- One scanned wire-format line. -/
structure Line where
  level : Nat
  xref : Option (List Char)
  tag : List Char
  payload : List Char
deriving DecidableEq, Repr

/-- Whether a tag scanned from a line is acceptable: the continuation tag,
a registry-known tag, or an extension tag by naming convention. -/
def tagOk (reg : Registry) (t : List Char) : Bool :=
  (t = "CONT".data) || (lookup reg (String.mk t)).isSome ||
    is_extension_tag (String.mk t)

/-- Parse a cross-reference token `@…@`, returning the enclosed
identifier. -/
def parseXrefTok : List Char → Option (List Char)
  | '@' :: t =>
    if t.getLast? = some '@' ∧ t.dropLast ≠ [] ∧ '@' ∉ t.dropLast then
      some t.dropLast
    else none
  | _ => none

/-- Finish scanning a line once level and optional xref are consumed: the
next token is the tag, the remaining tokens are the payload (unescaped). -/
def finishLine (reg : Registry) (lvl : Nat) (xref : Option (List Char))
    (tagTok : List Char) (payToks : List (List Char)) (lc : List Char) :
    Except MalformedLineError Line :=
  if tagTok = [] then .error (.badLine lc)
  else if tagTok.head? = some '@' then .error (.badLine lc)
  else if tagOk reg tagTok then
    match payToks with
    | [] => .ok ⟨lvl, xref, tagTok, []⟩
    | _ :: _ =>
      if payToks = [[]] then .error (.badLine lc)
      else if wellEscaped (joinCh ' ' payToks) then
        .ok ⟨lvl, xref, tagTok, unescapeAt (joinCh ' ' payToks)⟩
      else .error (.badLine lc)
  else .error (.unknownTag (String.mk tagTok))

/-- Modelled from the spec: the streaming line scanner (§4.5).  Splits a line
at single spaces into `LEVEL [XREF] TAG [PAYLOAD]`; the level numeral must be
canonical (no leading zeros), an xref token is delimited by `@`, the tag must
be registry-known or an extension tag (or `CONT`), and the payload must be
well-escaped. -/
def parseLineChars (reg : Registry) (lc : List Char) :
    Except MalformedLineError Line :=
  match splitCh ' ' lc with
  | [] => .error (.badLine lc)
  | lvlTok :: rest =>
    match parseDec lvlTok with
    | none => .error (.badLine lc)
    | some lvl =>
      if lvlTok = toDecList lvl then
        match rest with
        | [] => .error (.badLine lc)
        | tok :: rest2 =>
          if tok.head? = some '@' then
            match parseXrefTok tok with
            | none => .error (.badXref lc)
            | some body =>
              match rest2 with
              | [] => .error (.badLine lc)
              | tagTok :: payToks => finishLine reg lvl (some body) tagTok payToks lc
          else finishLine reg lvl none tok rest2 lc
      else .error (.badLine lc)

/-- Payload tokens of a rendered line: empty when the payload is absent,
otherwise the escaped payload split at spaces. -/
def payTokens : List Char → List (List Char)
  | [] => []
  | p :: ps => splitCh ' ' (escapeAt (p :: ps))

/-- Render the token list of a line: canonical level numeral, delimited xref,
tag, and the escaped payload split back into space-separated tokens. -/
def renderTokens (ln : Line) : List (List Char) :=
  match ln.xref with
  | some b => toDecList ln.level :: ('@' :: (b ++ ['@'])) :: ln.tag ::
      payTokens ln.payload
  | none => toDecList ln.level :: ln.tag :: payTokens ln.payload

/-- Render a line back to wire-format characters. -/
def renderLine (ln : Line) : List Char := joinCh ' ' (renderTokens ln)

/-- Split the leading continuation nodes off a freshly parsed child list. -/
def splitLeadCont : List StructureNode → List StructureNode × List StructureNode
  | [] => ([], [])
  | n :: rest =>
    if n.tag = "CONT" then
      ((n :: (splitLeadCont rest).1), (splitLeadCont rest).2)
    else ([], n :: rest)

/-- A continuation node merged into its parent's payload must be a leaf
without xref whose payload is a single line. -/
def contLeafOk (n : StructureNode) : Bool :=
  n.children.isEmpty && n.xref.isNone && n.payload.data.all (fun c => c ≠ '\n')

/-- Modelled from the spec: build a structure node from its line and its
parsed children.  Leading `CONT` children are newline-preserving
continuations of the payload; a `CONT` line may not itself have
substructures, and a continuation may not follow an ordinary child. -/
def buildNode (ln : Line) (kids : List StructureNode) :
    Except MalformedLineError StructureNode :=
  if ln.payload.all (fun c => c ≠ '\n') then
    if ln.tag = "CONT".data then
      if kids.isEmpty then
        .ok (.mk (String.mk ln.tag) (String.mk ln.payload)
              (ln.xref.map String.mk) [])
      else .error .badContinuation
    else
      if (splitLeadCont kids).1.all contLeafOk ∧
          (splitLeadCont kids).2.all (fun k => k.tag ≠ "CONT") then
        .ok (.mk (String.mk ln.tag)
              (String.mk (joinCh '\n'
                (ln.payload :: (splitLeadCont kids).1.map
                  (fun c => c.payload.data))))
              (ln.xref.map String.mk) (splitLeadCont kids).2)
      else .error .badContinuation
  else .error (.badLine ln.payload)

/-- Modelled from the spec: the stack-style tree builder of the decoder
(§4.5), written as fueled recursive descent.  `parseForest fuel lvl lns`
parses the maximal forest of nodes at level `lvl` from the front of `lns`
and returns it with the remaining lines; a line whose level exceeds `lvl`
is an illegal level jump. -/
def parseForest : Nat → Nat → List Line →
    Except MalformedLineError (List StructureNode × List Line)
  | 0, _, _ => .error .outOfFuel
  | _ + 1, _, [] => .ok ([], [])
  | fuel + 1, lvl, ln :: rest =>
    if ln.level < lvl then .ok ([], ln :: rest)
    else if lvl < ln.level then .error (.levelJump ln.level lvl)
    else
      match parseForest fuel (lvl + 1) rest with
      | .error e => .error e
      | .ok (kids, rest2) =>
        match buildNode ln kids with
        | .error e => .error e
        | .ok node =>
          match parseForest fuel lvl rest2 with
          | .error e => .error e
          | .ok (sibs, rest3) => .ok (node :: sibs, rest3)

/-- Modelled from the spec: parse a whole scanned document.  The root forest
is parsed at level 0; a continuation line at level 0 has no predecessor to
attach to and is rejected. -/
def parseDocument (lns : List Line) :
    Except MalformedLineError (List StructureNode) :=
  match parseForest (lns.length + 1) 0 lns with
  | .error e => .error e
  | .ok (f, []) =>
    if f.all (fun n => n.tag ≠ "CONT") then .ok f
    else .error .rootContinuation
  | .ok (_, _ :: _) => .error .trailingLines

/-- Decode a list of raw lines: scan each line, then build the forest. -/
def decodeLines (reg : Registry) (lcs : List (List Char)) :
    Except MalformedLineError (List StructureNode) :=
  match exceptMapList (parseLineChars reg) lcs with
  | .error e => .error e
  | .ok lns => parseDocument lns

/-- Drop one trailing carriage return (CR/LF tolerance of the decoder). -/
def dropCR (lc : List Char) : List Char :=
  if lc.getLast? = some '\r' then lc.dropLast else lc

/-- Modelled from the spec: `decode` on wire-format text (§4.5): split at
line feeds, tolerate a trailing carriage return on each line, scan and
build. -/
def decodeChars (reg : Registry) (text : List Char) :
    Except MalformedLineError (List StructureNode) :=
  decodeLines reg ((splitCh '\n' text).map dropCR)

/-- The CR/LF normalization of a text: each CRLF line ending becomes a bare
LF. -/
def normalizeEol (text : List Char) : List Char :=
  joinCh '\n' ((splitCh '\n' text).map dropCR)

/-- Modelled from the spec: the encoder's depth-first pre-order line listing
(§4.5).  Each node emits one line at its depth; the payload's embedded
newlines become newline-preserving `CONT` continuation lines at level+1,
followed by the children at level+1. -/
def forestLines : Nat → List StructureNode → List Line
  | _, [] => []
  | lvl, .mk tag payload xref children :: rest =>
    (⟨lvl, xref.map String.data, tag.data,
        (splitCh '\n' payload.data).headI⟩ ::
      (splitCh '\n' payload.data).tail.map
        (fun q => ⟨lvl + 1, none, "CONT".data, q⟩)) ++
      forestLines (lvl + 1) children ++ forestLines lvl rest

/-- Modelled from the spec: `encode` to wire-format text (§4.5). -/
def encodeText (f : List StructureNode) : List Char :=
  joinCh '\n' ((forestLines 0 f).map renderLine)

/-! ## Validity predicates

`lineValid` captures the line-level conditions under which a scanned line
renders back to its exact source text; `validNode`/`validForest` capture the
node-level conditions (§4.5, §6) under which a tree encodes to well-formed
wire text. -/

/-- Render-safety of one abstract line. -/
def lineValid (reg : Registry) (ln : Line) : Bool :=
  tagOk reg ln.tag &&
  (ln.tag ≠ []) &&
  (ln.tag.head? ≠ some '@') &&
  ln.tag.all (fun c => c ≠ ' ' && c ≠ '\n' && c ≠ '\r') &&
  (match ln.xref with
   | none => true
   | some b =>
     (b ≠ []) && b.all (fun c => c ≠ '@' && c ≠ ' ' && c ≠ '\n' && c ≠ '\r')) &&
  ln.payload.all (fun c => c ≠ '\n' && c ≠ '\r')

mutual

/-- Validity of a structure node for encoding: a known (or extension) tag
that is not the continuation tag and contains no wire-format delimiters, a
delimiter-free nonempty xref if present, a payload free of carriage returns,
and valid children. -/
def validNode (reg : Registry) : StructureNode → Bool
  | .mk tag payload xref children =>
    (tag ≠ "CONT") &&
    (tag.data ≠ []) &&
    (tag.data.head? ≠ some '@') &&
    tag.data.all (fun c => c ≠ ' ' && c ≠ '\n' && c ≠ '\r') &&
    ((lookup reg tag).isSome || is_extension_tag tag) &&
    (match xref with
     | none => true
     | some b =>
       (b.data ≠ []) &&
       b.data.all (fun c => c ≠ '@' && c ≠ ' ' && c ≠ '\n' && c ≠ '\r')) &&
    payload.data.all (fun c => c ≠ '\r') &&
    validForest reg children

/-- Validity of a forest of structure nodes. -/
def validForest (reg : Registry) : List StructureNode → Bool
  | [] => true
  | n :: rest => validNode reg n && validForest reg rest

end

theorem digitChar_not_special : ∀ d < 10,
    digitChar d ≠ ' ' ∧ digitChar d ≠ '\n' ∧ digitChar d ≠ '\r' ∧
    digitChar d ≠ '@' := by decide

theorem toDecList_not_special {n : Nat} {c : Char} (h : c ∈ toDecList n) :
    c ≠ ' ' ∧ c ≠ '\n' ∧ c ≠ '\r' ∧ c ≠ '@' := by
  obtain ⟨d, hd, rfl⟩ := mem_toDecList_digit h
  exact digitChar_not_special d hd

theorem space_not_mem_payTokens {payload t : List Char}
    (ht : t ∈ payTokens payload) : ' ' ∉ t := by
  cases payload with
  | nil => simp [payTokens] at ht
  | cons p ps =>
    rw [payTokens] at ht
    exact not_mem_of_mem_splitCh ht

/-- A rendered line splits back into its rendered tokens. -/
theorem splitCh_renderLine {reg : Registry} {ln : Line}
    (h : lineValid reg ln = true) :
    splitCh ' ' (renderLine ln) = renderTokens ln := by
  obtain ⟨lvl, xref, tag, payload⟩ := ln
  apply splitCh_joinCh
  · cases xref <;> simp [renderTokens]
  · intro t ht
    cases xref with
    | none =>
      simp only [lineValid, Bool.and_eq_true, decide_eq_true_eq] at h
      obtain ⟨⟨⟨⟨⟨_, _⟩, _⟩, htagall⟩, _⟩, _⟩ := h
      rw [renderTokens] at ht
      rcases List.mem_cons.mp ht with ht | ht
      · subst ht
        intro hsp
        exact (toDecList_not_special hsp).1 rfl
      rcases List.mem_cons.mp ht with ht | ht
      · subst ht
        intro hsp
        have := List.all_eq_true.mp htagall _ hsp
        simp at this
      · exact space_not_mem_payTokens ht
    | some b =>
      simp only [lineValid, Bool.and_eq_true, decide_eq_true_eq] at h
      obtain ⟨⟨⟨⟨⟨_, _⟩, _⟩, htagall⟩, hxref⟩, _⟩ := h
      rw [renderTokens] at ht
      rcases List.mem_cons.mp ht with ht | ht
      · subst ht
        intro hsp
        exact (toDecList_not_special hsp).1 rfl
      rcases List.mem_cons.mp ht with ht | ht
      · subst ht
        intro hsp
        simp only [List.mem_cons, List.mem_append, List.mem_singleton] at hsp
        rcases hsp with h1 | h1 | h1
        · exact absurd h1 (by decide)
        · have := List.all_eq_true.mp hxref.2 _ h1
          simp at this
        · exact absurd h1 (by decide)
      rcases List.mem_cons.mp ht with ht | ht
      · subst ht
        intro hsp
        have := List.all_eq_true.mp htagall _ hsp
        simp at this
      · exact space_not_mem_payTokens ht

theorem finishLine_renderToks (reg : Registry) (lvl : Nat)
    (xref : Option (List Char)) (tag payload lc : List Char)
    (h1 : tag ≠ []) (h2 : tag.head? ≠ some '@') (h3 : tagOk reg tag = true) :
    finishLine reg lvl xref tag (payTokens payload) lc =
      .ok ⟨lvl, xref, tag, payload⟩ := by
  cases payload with
  | nil => simp [payTokens, finishLine, h1, h2, h3]
  | cons p ps =>
    rw [payTokens]
    have hene : escapeAt (p :: ps) ≠ [] := escapeAt_ne_nil (by simp)
    cases hsp : splitCh ' ' (escapeAt (p :: ps)) with
    | nil => exact absurd hsp (splitCh_ne_nil _ _)
    | cons t ts =>
      have hnn : ¬(t :: ts = [[]]) := by
        intro heq
        rw [heq] at hsp
        exact hene (splitCh_eq_single_nil hsp)
      have hjoin : joinCh ' ' (t :: ts) = escapeAt (p :: ps) := by
        rw [← hsp, joinCh_splitCh]
      rw [finishLine, if_neg h1, if_neg h2, if_pos h3]
      rw [if_neg hnn,
        if_pos (show wellEscaped (joinCh ' ' (t :: ts)) = true by
          rw [hjoin]; exact wellEscaped_escapeAt _),
        hjoin, unescapeAt_escapeAt]

theorem parseXrefTok_render {b : List Char} (h1 : b ≠ []) (h2 : '@' ∉ b) :
    parseXrefTok ('@' :: (b ++ ['@'])) = some b := by
  have hgl : (b ++ ['@']).getLast? = some '@' := by simp
  have hdl : (b ++ ['@']).dropLast = b := by simp
  rw [parseXrefTok, if_pos ⟨hgl, by rw [hdl]; exact h1, by rw [hdl]; exact h2⟩, hdl]

/-- A valid line scans back from its rendering (the encode-then-decode
direction at line granularity). -/
theorem parseLineChars_renderLine {reg : Registry} {ln : Line}
    (h : lineValid reg ln = true) :
    parseLineChars reg (renderLine ln) = .ok ln := by
  have hsplit := splitCh_renderLine h
  obtain ⟨lvl, xref, tag, payload⟩ := ln
  rw [parseLineChars, hsplit]
  cases xref with
  | none =>
    simp only [lineValid, Bool.and_eq_true, decide_eq_true_eq] at h
    obtain ⟨⟨⟨⟨⟨htagOk, htagne⟩, htaghead⟩, htagall⟩, _⟩, hpayall⟩ := h
    simp only [renderTokens, parseDec_toDecList]
    rw [if_pos trivial, if_neg htaghead]
    exact finishLine_renderToks reg lvl none tag payload _ htagne htaghead htagOk
  | some b =>
    simp only [lineValid, Bool.and_eq_true, decide_eq_true_eq] at h
    obtain ⟨⟨⟨⟨⟨htagOk, htagne⟩, htaghead⟩, htagall⟩, hxref⟩, hpayall⟩ := h
    have hbne : b ≠ [] := hxref.1
    have hbnoat : '@' ∉ b := by
      intro hm
      have := List.all_eq_true.mp hxref.2 _ hm
      simp at this
    simp only [renderTokens, parseDec_toDecList]
    rw [if_pos trivial]
    simp only [List.head?_cons]
    rw [if_pos trivial, parseXrefTok_render hbne hbnoat]
    exact finishLine_renderToks reg lvl (some b) tag payload _ htagne htaghead htagOk


theorem finishLine_ok {reg : Registry} {lvl : Nat} {xref : Option (List Char)}
    {tagTok : List Char} {payToks : List (List Char)} {lc : List Char} {ln : Line}
    (h : finishLine reg lvl xref tagTok payToks lc = .ok ln) :
    ln.level = lvl ∧ ln.xref = xref ∧ ln.tag = tagTok ∧
    ((payToks = [] ∧ ln.payload = []) ∨
     (payToks ≠ [] ∧ payToks ≠ [[]] ∧ wellEscaped (joinCh ' ' payToks) = true ∧
      ln.payload = unescapeAt (joinCh ' ' payToks))) := by
  cases payToks with
  | nil =>
    rw [finishLine.eq_def] at h
    simp only [] at h
    split at h
    · exact absurd h (by simp)
    · split at h
      · exact absurd h (by simp)
      · split at h
        · rw [Except.ok.injEq] at h
          subst h
          exact ⟨rfl, rfl, rfl, Or.inl ⟨rfl, rfl⟩⟩
        · exact absurd h (by simp)
  | cons t ts =>
    rw [finishLine.eq_def] at h
    simp only [] at h
    split at h
    · exact absurd h (by simp)
    · split at h
      · exact absurd h (by simp)
      · split at h
        · split at h
          · exact absurd h (by simp)
          · split at h
            · rename_i hnn hwe
              rw [Except.ok.injEq] at h
              subst h
              exact ⟨rfl, rfl, rfl, Or.inr ⟨by simp, hnn, hwe, rfl⟩⟩
            · exact absurd h (by simp)
        · exact absurd h (by simp)

theorem parseXrefTok_ok {tok body : List Char}
    (h : parseXrefTok tok = some body) : tok = '@' :: (body ++ ['@']) := by
  rw [parseXrefTok.eq_def] at h
  split at h
  · rename_i t
    split at h
    · rename_i hcond
      rw [Option.some.injEq] at h
      subst h
      obtain ⟨hgl, hne, _⟩ := hcond
      have hne2 : t ≠ [] := by
        intro heq
        rw [heq] at hgl
        simp at hgl
      have hdl : t.dropLast ++ [t.getLast hne2] = t := List.dropLast_append_getLast hne2
      have hlast : t.getLast hne2 = '@' := by
        have h2 := List.getLast?_eq_getLast t hne2
        rw [hgl] at h2
        simpa using h2.symm
      rw [hlast] at hdl
      rw [hdl]
    · exact absurd h (by simp)
  · exact absurd h (by simp)

theorem payTokens_of_finishLine {payToks : List (List Char)} {ln : Line}
    (hmem : ∀ t ∈ payToks, ' ' ∉ t)
    (hpay : (payToks = [] ∧ ln.payload = []) ∨
     (payToks ≠ [] ∧ payToks ≠ [[]] ∧ wellEscaped (joinCh ' ' payToks) = true ∧
      ln.payload = unescapeAt (joinCh ' ' payToks))) :
    payTokens ln.payload = payToks := by
  rcases hpay with ⟨hpt, hpl⟩ | ⟨hpne, hpnn, hwe, hpl⟩
  · rw [hpl, hpt]
    rfl
  · have hjne : joinCh ' ' payToks ≠ [] := by
      intro heq
      rcases joinCh_eq_nil heq with h1 | h1
      · exact hpne h1
      · exact hpnn h1
    have hpune : ln.payload ≠ [] := by
      rw [hpl]
      exact unescapeAt_ne_nil hjne
    cases hplc : ln.payload with
    | nil => exact absurd hplc hpune
    | cons p ps =>
      rw [payTokens, ← hplc, hpl, escapeAt_unescapeAt _ hwe]
      exact splitCh_joinCh hpne hmem

/-- A successfully scanned line renders back to its exact source text (the
decode-then-encode direction at line granularity). -/
theorem renderLine_parseLineChars {reg : Registry} {lc : List Char} {ln : Line}
    (h : parseLineChars reg lc = .ok ln) : renderLine ln = lc := by
  rw [parseLineChars] at h
  cases hsp : splitCh ' ' lc with
  | nil => rw [hsp] at h; exact absurd h (by simp)
  | cons lvlTok rest =>
    simp only [hsp] at h
    cases hpd : parseDec lvlTok with
    | none => simp only [hpd] at h; exact absurd h (by simp)
    | some lvl =>
      simp only [hpd] at h
      split at h
      case isFalse => exact absurd h (by simp)
      case isTrue hcanon =>
        cases rest with
        | nil => exact absurd h (by simp)
        | cons tok rest2 =>
          simp only [] at h
          have hjoin : joinCh ' ' (splitCh ' ' lc) = lc := joinCh_splitCh ' ' lc
          split at h
          case isTrue hhead =>
            cases hx : parseXrefTok tok with
            | none => simp only [hx] at h; exact absurd h (by simp)
            | some body =>
              simp only [hx] at h
              cases rest2 with
              | nil => exact absurd h (by simp)
              | cons tagTok payToks =>
                simp only [] at h
                obtain ⟨hlvl, hxr, htag, hpay⟩ := finishLine_ok h
                have htokeq : tok = '@' :: (body ++ ['@']) := parseXrefTok_ok hx
                have hmem : ∀ t ∈ payToks, ' ' ∉ t := by
                  intro t ht
                  have : t ∈ splitCh ' ' lc := by
                    rw [hsp]
                    exact List.mem_cons_of_mem _ (List.mem_cons_of_mem _
                      (List.mem_cons_of_mem _ ht))
                  exact not_mem_of_mem_splitCh this
                have htoks : renderTokens ln = lvlTok :: tok :: tagTok :: payToks := by
                  rw [renderTokens, hxr, hlvl, ← hcanon, htag, htokeq,
                    payTokens_of_finishLine hmem hpay]
                rw [renderLine, htoks, ← hsp, hjoin]
          case isFalse hhead =>
            obtain ⟨hlvl, hxr, htag, hpay⟩ := finishLine_ok h
            have hmem : ∀ t ∈ rest2, ' ' ∉ t := by
              intro t ht
              have : t ∈ splitCh ' ' lc := by
                rw [hsp]
                exact List.mem_cons_of_mem _ (List.mem_cons_of_mem _ ht)
              exact not_mem_of_mem_splitCh this
            have htoks : renderTokens ln = lvlTok :: tok :: rest2 := by
              rw [renderTokens, hxr, hlvl, ← hcanon, htag,
                payTokens_of_finishLine hmem hpay]
            rw [renderLine, htoks, ← hsp, hjoin]

/-! ## Forest-level round-trip lemmas -/

theorem splitLeadCont_append_eq : ∀ kids : List StructureNode,
    (splitLeadCont kids).1 ++ (splitLeadCont kids).2 = kids
  | [] => rfl
  | n :: rest => by
    rw [splitLeadCont]
    split
    · simp only [List.cons_append]
      rw [splitLeadCont_append_eq rest]
    · simp

theorem splitLeadCont_fst_cont : ∀ {kids : List StructureNode}
    {n : StructureNode}, n ∈ (splitLeadCont kids).1 → n.tag = "CONT" := by
  intro kids
  induction kids with
  | nil => intro n hn; simp [splitLeadCont] at hn
  | cons k rest ih =>
    intro n hn
    rw [splitLeadCont] at hn
    split at hn
    · rename_i hk
      rcases List.mem_cons.mp hn with h1 | h1
      · subst h1; exact hk
      · exact ih h1
    · simp at hn

theorem splitLeadCont_snd_head : ∀ {kids : List StructureNode}
    {l : StructureNode}, (splitLeadCont kids).2.head? = some l →
    ¬(l.tag = "CONT") := by
  intro kids
  induction kids with
  | nil => intro l hl; simp [splitLeadCont] at hl
  | cons k rest ih =>
    intro l hl
    rw [splitLeadCont] at hl
    split at hl
    · exact ih hl
    · rename_i hk
      simp only [List.head?_cons, Option.some.injEq] at hl
      subst hl
      exact hk

theorem splitLeadCont_of_parts {cs ks : List StructureNode}
    (hcs : ∀ c ∈ cs, c.tag = "CONT")
    (hks : ∀ l, ks.head? = some l → ¬(l.tag = "CONT")) :
    splitLeadCont (cs ++ ks) = (cs, ks) := by
  induction cs with
  | nil =>
    cases ks with
    | nil => rfl
    | cons k rest =>
      rw [List.nil_append, splitLeadCont]
      rw [if_neg (hks k rfl)]
  | cons c cs2 ih =>
    rw [List.cons_append, splitLeadCont,
      if_pos (hcs c (List.mem_cons_self c cs2))]
    rw [ih (fun x hx => hcs x (List.mem_cons_of_mem c hx))]

theorem forestLines_append (lvl : Nat) : ∀ a b : List StructureNode,
    forestLines lvl (a ++ b) = forestLines lvl a ++ forestLines lvl b := by
  intro a
  induction a with
  | nil => intro b; simp [forestLines]
  | cons n rest ih =>
    intro b
    obtain ⟨tag, payload, xref, children⟩ := n
    rw [List.cons_append, forestLines, forestLines, ih]
    simp [List.append_assoc]

theorem forestLines_contLeaves {lvl : Nat} : ∀ {cs : List StructureNode},
    (∀ c ∈ cs, c.tag = "CONT" ∧ contLeafOk c = true) →
    forestLines lvl cs =
      cs.map (fun c => ⟨lvl, none, "CONT".data, c.payload.data⟩) := by
  intro cs
  induction cs with
  | nil => intro _; simp [forestLines]
  | cons c rest ih =>
    intro h
    obtain ⟨htag, hok⟩ := h c (List.mem_cons_self c rest)
    have ihr := ih (fun x hx => h x (List.mem_cons_of_mem c hx))
    obtain ⟨tag, payload, xref, children⟩ := c
    simp only [StructureNode.tag] at htag
    simp only [contLeafOk, Bool.and_eq_true, List.isEmpty_iff,
      Option.isNone_iff_eq_none, StructureNode.children, StructureNode.xref,
      StructureNode.payload] at hok
    obtain ⟨⟨hch, hxr⟩, hpl⟩ := hok
    subst htag; subst hch; subst hxr
    rw [forestLines]
    have hnl : '\n' ∉ payload.data := by
      intro hm
      have := List.all_eq_true.mp hpl _ hm
      simp at this
    rw [splitCh_no_sep hnl]
    simp only [List.headI, List.tail_cons, List.map_nil, List.map_cons,
      Option.map_none]
    rw [forestLines, ihr]
    simp [StructureNode.payload]

theorem buildNode_ok {ln : Line} {kids : List StructureNode}
    {node : StructureNode} (h : buildNode ln kids = .ok node) :
    ln.payload.all (fun c => c ≠ '\n') = true ∧
    ((ln.tag = "CONT".data ∧ kids = [] ∧
      node = .mk (String.mk ln.tag) (String.mk ln.payload)
        (ln.xref.map String.mk) []) ∨
     (¬(ln.tag = "CONT".data) ∧
      (splitLeadCont kids).1.all contLeafOk = true ∧
      (splitLeadCont kids).2.all (fun k => k.tag ≠ "CONT") = true ∧
      node = .mk (String.mk ln.tag)
        (String.mk (joinCh '\n'
          (ln.payload :: (splitLeadCont kids).1.map (fun c => c.payload.data))))
        (ln.xref.map String.mk) (splitLeadCont kids).2)) := by
  rw [buildNode] at h
  split at h
  · rename_i hnl
    split at h
    · rename_i hcont
      split at h
      · rename_i hempty
        rw [Except.ok.injEq] at h
        exact ⟨hnl, Or.inl ⟨hcont, List.isEmpty_iff.mp hempty, h.symm⟩⟩
      · exact absurd h (by simp)
    · rename_i hcont
      split at h
      · rename_i hconds
        rw [Except.ok.injEq] at h
        exact ⟨hnl, Or.inr ⟨hcont, hconds.1, hconds.2, h.symm⟩⟩
      · exact absurd h (by simp)
  · exact absurd h (by simp)

theorem contLeafOk_payload {n : StructureNode} (h : contLeafOk n = true) :
    '\n' ∉ n.payload.data := by
  simp only [contLeafOk, Bool.and_eq_true] at h
  intro hm
  have := List.all_eq_true.mp h.2 _ hm
  simp at this

/-- Soundness of the tree builder: the lines of a successfully parsed forest,
re-listed by the encoder, are exactly the consumed input lines. -/
theorem parseForest_sound : ∀ (fuel lvl : Nat) (lns : List Line)
    (f : List StructureNode) (rest : List Line),
    parseForest fuel lvl lns = .ok (f, rest) →
    forestLines lvl f ++ rest = lns := by
  intro fuel
  induction fuel with
  | zero =>
    intro lvl lns f rest h
    rw [parseForest] at h
    exact absurd h (by simp)
  | succ fuel ih =>
    intro lvl lns f rest h
    cases lns with
    | nil =>
      rw [parseForest] at h
      rw [Except.ok.injEq, Prod.mk.injEq] at h
      obtain ⟨hf, hr⟩ := h
      subst hf; subst hr
      simp [forestLines]
    | cons ln rest1 =>
      rw [parseForest] at h
      split at h
      · rw [Except.ok.injEq, Prod.mk.injEq] at h
        obtain ⟨hf, hr⟩ := h
        subst hf; subst hr
        simp [forestLines]
      · split at h
        · exact absurd h (by simp)
        · rename_i hnl hng
          have hlv : ln.level = lvl := by omega
          cases hk : parseForest fuel (lvl + 1) rest1 with
          | error e => simp only [hk] at h; exact absurd h (by simp)
          | ok pr =>
            obtain ⟨kids, rest2⟩ := pr
            simp only [hk] at h
            cases hb : buildNode ln kids with
            | error e => simp only [hb] at h; exact absurd h (by simp)
            | ok node =>
              simp only [hb] at h
              cases hs : parseForest fuel lvl rest2 with
              | error e => simp only [hs] at h; exact absurd h (by simp)
              | ok pr2 =>
                obtain ⟨sibs, rest3⟩ := pr2
                simp only [hs] at h
                rw [Except.ok.injEq, Prod.mk.injEq] at h
                obtain ⟨hf, hr⟩ := h
                subst hf; subst hr
                have ihk := ih (lvl + 1) rest1 kids rest2 hk
                have ihs := ih lvl rest2 sibs rest3 hs
                obtain ⟨hnlpay, hcase⟩ := buildNode_ok hb
                have hpaynl : '\n' ∉ ln.payload := by
                  intro hm
                  have := List.all_eq_true.mp hnlpay _ hm
                  simp at this
                obtain ⟨lnlvl, lnxref, lntag, lnpay⟩ := ln
                simp only [] at hlv hpaynl hcase ihk ihs ⊢
                subst hlv
                have hxo : Option.map String.data (Option.map String.mk lnxref) =
                    lnxref := by
                  cases lnxref <;> rfl
                rcases hcase with ⟨hcont, hkids, hnode⟩ | ⟨hcont, hcsok, hksok, hnode⟩
                · subst hnode
                  subst hkids
                  rw [forestLines] at ihk
                  rw [List.nil_append] at ihk
                  subst ihk
                  rw [forestLines]
                  simp only [String.data]
                  rw [splitCh_no_sep hpaynl]
                  simp only [List.headI, List.tail_cons, List.map_nil]
                  rw [forestLines]
                  simp only [List.nil_append, List.cons_append, List.append_assoc]
                  rw [ihs, hxo, hcont]
                · subst hnode
                  have hcs := splitLeadCont_append_eq kids
                  set cs := (splitLeadCont kids).1 with hcsdef
                  set ks := (splitLeadCont kids).2 with hksdef
                  have hpartsnl : ∀ q ∈ lnpay :: cs.map (fun c => c.payload.data),
                      '\n' ∉ q := by
                    intro q hq
                    rcases List.mem_cons.mp hq with h1 | h1
                    · subst h1; exact hpaynl
                    · obtain ⟨c, hc, hcq⟩ := List.mem_map.mp h1
                      subst hcq
                      exact contLeafOk_payload (List.all_eq_true.mp hcsok _ hc)
                  have hcls : forestLines (lnlvl + 1) cs =
                      cs.map (fun c =>
                        ⟨lnlvl + 1, none, "CONT".data, c.payload.data⟩) := by
                    apply forestLines_contLeaves
                    intro c hc
                    exact ⟨splitLeadCont_fst_cont (hcsdef ▸ hc),
                      List.all_eq_true.mp hcsok _ hc⟩
                  rw [forestLines]
                  simp only [String.data]
                  rw [splitCh_joinCh (by simp) hpartsnl]
                  simp only [List.headI, List.tail_cons]
                  simp only [List.cons_append, List.append_assoc]
                  rw [ihs, ← ihk, ← hcs, forestLines_append, hcls]
                  simp only [List.map_map, hxo, List.append_assoc]
                  rfl

theorem parseForest_boundary {fuel lvl : Nat} {lns : List Line} (hf : 0 < fuel)
    (hb : ∀ l, lns.head? = some l → l.level < lvl) :
    parseForest fuel lvl lns = .ok ([], lns) := by
  cases fuel with
  | zero => omega
  | succ fuel =>
    cases lns with
    | nil => rw [parseForest]
    | cons ln rest => rw [parseForest, if_pos (hb ln rfl)]

theorem forestLines_head_level {lvl : Nat} {g : List StructureNode} {l : Line}
    (h : (forestLines lvl g).head? = some l) : l.level = lvl := by
  cases g with
  | nil => rw [forestLines] at h; simp at h
  | cons n g2 =>
    obtain ⟨tag, payload, xref, children⟩ := n
    rw [forestLines] at h
    simp only [List.cons_append, List.head?_cons, Option.some.injEq] at h
    subst h
    rfl

theorem head_level_append {lvl lvl2 : Nat} {g : List StructureNode}
    {rest : List Line} (h1 : lvl < lvl2)
    (h2 : ∀ l, rest.head? = some l → l.level < lvl2) :
    ∀ l, (forestLines lvl g ++ rest).head? = some l → l.level < lvl2 := by
  intro l hl
  cases hg : forestLines lvl g with
  | nil => rw [hg, List.nil_append] at hl; exact h2 l hl
  | cons x xs =>
    rw [hg] at hl
    simp only [List.cons_append, List.head?_cons, Option.some.injEq] at hl
    subst hl
    have : x.level = lvl := forestLines_head_level (by rw [hg]; rfl)
    omega

theorem stringDataInj {a b : String} (h : a.data = b.data) : a = b := by
  cases a
  cases b
  exact congrArg String.mk h

theorem stringEta (s : String) : String.mk s.data = s := rfl

theorem optionXrefEta (x : Option String) :
    (x.map String.data).map String.mk = x := by
  cases x <;> rfl

theorem validForest_all {reg : Registry} : ∀ {f : List StructureNode},
    validForest reg f = true → ∀ n ∈ f, validNode reg n = true := by
  intro f
  induction f with
  | nil => intro _ n hn; simp at hn
  | cons m rest ih =>
    intro h n hn
    rw [validForest, Bool.and_eq_true] at h
    rcases List.mem_cons.mp hn with h1 | h1
    · subst h1; exact h.1
    · exact ih h.2 n h1

theorem validNode_tag_ne_cont {reg : Registry} {n : StructureNode}
    (h : validNode reg n = true) : ¬(n.tag = "CONT") := by
  obtain ⟨tag, payload, xref, children⟩ := n
  simp only [validNode, Bool.and_eq_true, decide_eq_true_eq] at h
  exact h.1.1.1.1.1.1.1

theorem validNode_children {reg : Registry} {tag payload : String}
    {xref : Option String} {children : List StructureNode}
    (h : validNode reg (.mk tag payload xref children) = true) :
    validForest reg children = true := by
  simp only [validNode, Bool.and_eq_true] at h
  exact h.2

theorem all_ne_nl {q : List Char} (hq : '\n' ∉ q) :
    q.all (fun c => decide (c ≠ '\n')) = true := by
  apply List.all_eq_true.mpr
  intro c hc
  simp only [decide_eq_true_eq]
  intro heq
  exact hq (heq ▸ hc)

/-- Building a continuation line with no children yields the continuation
leaf node. -/
theorem buildNode_cont {lvl : Nat} {q : List Char} (hq : '\n' ∉ q) :
    buildNode ⟨lvl, none, "CONT".data, q⟩ [] =
      .ok (StructureNode.mk "CONT" (String.mk q) none []) := by
  rw [buildNode]
  rw [if_pos (all_ne_nl hq), if_pos rfl]
  simp

/-- Building an ordinary line over a child list that starts with continuation
leaves merges their payloads and keeps the remaining children. -/
theorem buildNode_merge {lvl : Nat} {xref : Option (List Char)}
    {tagD p : List Char} {csN children : List StructureNode}
    (hp : '\n' ∉ p)
    (htag : ¬(tagD = "CONT".data))
    (hsplit : splitLeadCont (csN ++ children) = (csN, children))
    (hcsok : csN.all contLeafOk = true)
    (hksok : children.all (fun k => decide (k.tag ≠ "CONT")) = true) :
    buildNode ⟨lvl, xref, tagD, p⟩ (csN ++ children) =
      .ok (.mk (String.mk tagD)
        (String.mk (joinCh '\n' (p :: csN.map (fun c => c.payload.data))))
        (xref.map String.mk) children) := by
  rw [buildNode]
  simp only [all_ne_nl hp, if_true]
  rw [if_neg htag]
  rw [hsplit]
  simp only []
  rw [if_pos ⟨hcsok, hksok⟩]

/-- Parsing a run of continuation lines followed by an already parsable
tail yields the continuation leaf nodes in front of the tail's forest. -/
theorem parseForest_contPrefix (lvl : Nat) :
    ∀ (cs : List (List Char)) (f0 : List StructureNode) (rest0 tail : List Line)
      (fuel : Nat),
    (∀ q ∈ cs, '\n' ∉ q) →
    (∀ fuel2, tail.length < fuel2 → parseForest fuel2 lvl tail = .ok (f0, rest0)) →
    (∀ l, tail.head? = some l → l.level < lvl + 1) →
    ((cs.map (fun q => (⟨lvl, none, "CONT".data, q⟩ : Line))) ++ tail).length < fuel →
    parseForest fuel lvl
      (cs.map (fun q => ⟨lvl, none, "CONT".data, q⟩) ++ tail) =
      .ok (cs.map (fun q => StructureNode.mk "CONT" (String.mk q) none []) ++ f0,
        rest0) := by
  intro cs
  induction cs with
  | nil =>
    intro f0 rest0 tail fuel hnl hA hhd hlen
    simp only [List.map_nil, List.nil_append] at hlen ⊢
    exact hA fuel hlen
  | cons q cs2 ih =>
    intro f0 rest0 tail fuel hnl hA hhd hlen
    cases fuel with
    | zero => simp at hlen
    | succ fuel =>
      simp only [List.map_cons, List.cons_append]
      rw [parseForest]
      simp only [lt_irrefl, if_false]
      have hlen2 : (cs2.map (fun q => (⟨lvl, none, "CONT".data, q⟩ : Line)) ++
          tail).length < fuel := by
        simp only [List.length_append, List.length_map] at hlen ⊢
        simp only [List.length_cons] at hlen
        omega
      have hbound : ∀ l, (cs2.map
          (fun q => (⟨lvl, none, "CONT".data, q⟩ : Line)) ++ tail).head? =
          some l → l.level < lvl + 1 := by
        intro l hl
        cases cs2 with
        | nil => exact hhd l (by simpa using hl)
        | cons q2 cs3 =>
          simp only [List.map_cons, List.cons_append, List.head?_cons,
            Option.some.injEq] at hl
          subst hl
          exact Nat.lt_succ_self lvl
      rw [parseForest_boundary (by omega) hbound]
      simp only []
      rw [buildNode_cont (hnl q (List.mem_cons_self q cs2))]
      simp only []
      rw [ih f0 rest0 tail fuel
        (fun x hx => hnl x (List.mem_cons_of_mem q hx)) hA hhd hlen2]

/-- Completeness of the tree builder: the encoder's line listing of a valid
forest parses back to exactly that forest. -/
theorem parseForest_complete (reg : Registry) :
    ∀ (f : List StructureNode) (lvl : Nat) (rest : List Line) (fuel : Nat),
    validForest reg f = true →
    (∀ l, rest.head? = some l → l.level < lvl) →
    (forestLines lvl f ++ rest).length < fuel →
    parseForest fuel lvl (forestLines lvl f ++ rest) = .ok (f, rest)
  | [], lvl, rest, fuel, hv, hb, hlen => by
    rw [forestLines, List.nil_append] at hlen ⊢
    exact parseForest_boundary (by omega) hb
  | .mk tag payload xref children :: rest2, lvl, rest, fuel, hv, hb, hlen => by
    rw [validForest, Bool.and_eq_true] at hv
    obtain ⟨hvnode, hvrest⟩ := hv
    have htagcont : ¬(tag = "CONT") := validNode_tag_ne_cont hvnode
    have hvch : validForest reg children = true := validNode_children hvnode
    rw [forestLines] at hlen ⊢
    cases hparts : splitCh '\n' payload.data with
    | nil => exact absurd hparts (splitCh_ne_nil _ _)
    | cons p ps =>
      rw [hparts] at hlen
      simp only [List.headI, List.tail_cons, List.cons_append,
        List.append_assoc] at hlen ⊢
      cases fuel with
      | zero => simp at hlen
      | succ fuel =>
        rw [parseForest]
        simp only [lt_irrefl, if_false]
        have hpnl : ∀ q ∈ p :: ps, '\n' ∉ q := by
          intro q hq
          rw [← hparts] at hq
          exact not_mem_of_mem_splitCh hq
        have hlenA : (forestLines lvl rest2 ++ rest).length < fuel := by
          simp only [List.length_cons, List.length_append,
            List.length_map] at hlen ⊢
          omega
        have hbndA : ∀ l, (forestLines lvl rest2 ++ rest).head? = some l →
            l.level < lvl + 1 :=
          head_level_append (Nat.lt_succ_self lvl) (fun l hl => by
            have := hb l hl
            omega)
        have htailA : ∀ fuel2,
            (forestLines (lvl + 1) children ++
              (forestLines lvl rest2 ++ rest)).length < fuel2 →
            parseForest fuel2 (lvl + 1)
              (forestLines (lvl + 1) children ++
                (forestLines lvl rest2 ++ rest)) = .ok (children,
                  forestLines lvl rest2 ++ rest) := by
          intro fuel2 hlen2
          exact parseForest_complete reg children (lvl + 1)
            (forestLines lvl rest2 ++ rest) fuel2 hvch hbndA hlen2
        have hkids := parseForest_contPrefix (lvl + 1) ps children
          (forestLines lvl rest2 ++ rest)
          (forestLines (lvl + 1) children ++ (forestLines lvl rest2 ++ rest))
          fuel
          (fun q hq => hpnl q (List.mem_cons_of_mem p hq))
          htailA
          (head_level_append (Nat.lt_succ_self (lvl + 1)) (fun l hl => by
            have := hbndA l hl
            omega))
          (by
            simp only [List.length_cons, List.length_append,
              List.length_map] at hlen ⊢
            omega)
        rw [hkids]
        simp only []
        set csN := ps.map (fun q => StructureNode.mk "CONT" (String.mk q) none [])
          with hcsN
        have hsplit2 : splitLeadCont (csN ++ children) = (csN, children) := by
          apply splitLeadCont_of_parts
          · intro c hc
            rw [hcsN] at hc
            obtain ⟨q, hq, hqc⟩ := List.mem_map.mp hc
            subst hqc
            rfl
          · intro l hl
            cases children with
            | nil => simp at hl
            | cons ch chs =>
              simp only [List.head?_cons, Option.some.injEq] at hl
              subst hl
              exact validNode_tag_ne_cont
                (validForest_all hvch ch (List.mem_cons_self ch chs))
        have hcontTag : ¬(tag.data = "CONT".data) := by
          intro hd
          exact htagcont (stringDataInj hd)
        have hcsok : csN.all contLeafOk = true := by
          apply List.all_eq_true.mpr
          intro c hc
          rw [hcsN] at hc
          obtain ⟨q, hq, hqc⟩ := List.mem_map.mp hc
          subst hqc
          simp only [contLeafOk, StructureNode.children, StructureNode.xref,
            StructureNode.payload, List.isEmpty_nil, Option.isNone_none,
            Bool.true_and]
          exact all_ne_nl (hpnl q (List.mem_cons_of_mem p hq))
        have hksok : children.all (fun k => decide (k.tag ≠ "CONT")) = true := by
          apply List.all_eq_true.mpr
          intro k hk
          simpa using validNode_tag_ne_cont (validForest_all hvch k hk)
        rw [buildNode_merge (hpnl p (List.mem_cons_self p ps)) hcontTag
          hsplit2 hcsok hksok]
        simp only []
        rw [parseForest_complete reg rest2 lvl rest fuel hvrest hb hlenA]
        simp only []
        have hjoinparts : joinCh '\n'
            (p :: csN.map (fun c => c.payload.data)) = payload.data := by
          rw [hcsN, List.map_map]
          have hmapid : ps.map ((fun c => (StructureNode.payload c).data) ∘
              (fun q => StructureNode.mk "CONT" (String.mk q) none [])) = ps := by
            rw [List.map_congr_left (fun x hx => rfl :
              ∀ x ∈ ps, ((fun c => (StructureNode.payload c).data) ∘
                (fun q => StructureNode.mk "CONT" (String.mk q) none [])) x = x)]
            exact List.map_id ps
          rw [hmapid, ← hparts, joinCh_splitCh]
        rw [hjoinparts]
        rw [stringEta, stringEta, optionXrefEta]

/-! ## Document and text level round trip -/

theorem exceptMapList_ok_map {α β ε : Type} {g : α → Except ε β}
    {r : β → α} (hgr : ∀ a b, g a = .ok b → r b = a) :
    ∀ {as : List α} {bs : List β},
    exceptMapList g as = .ok bs → bs.map r = as := by
  intro as
  induction as with
  | nil =>
    intro bs h
    rw [exceptMapList] at h
    rw [Except.ok.injEq] at h
    subst h
    rfl
  | cons a rest ih =>
    intro bs h
    rw [exceptMapList] at h
    cases hg : g a with
    | error e => rw [hg] at h; exact absurd h (by simp)
    | ok b =>
      rw [hg] at h
      cases hr : exceptMapList g rest with
      | error e => rw [hr] at h; exact absurd h (by simp)
      | ok bs2 =>
        rw [hr] at h
        rw [Except.ok.injEq] at h
        subst h
        rw [List.map_cons, ih hr, hgr a b hg]

theorem exceptMapList_of_pointwise {α β ε : Type} {g : α → Except ε β} :
    ∀ {bs : List β} {as : List α},
    as.length = bs.length →
    (∀ i : Nat, ∀ ha : i < as.length, ∀ hb : i < bs.length,
      g (as.get ⟨i, ha⟩) = .ok (bs.get ⟨i, hb⟩)) →
    exceptMapList g as = .ok bs := by
  intro bs
  induction bs with
  | nil =>
    intro as hlen _
    cases as with
    | nil => rfl
    | cons a rest => simp at hlen
  | cons b rest ih =>
    intro as hlen hpt
    cases as with
    | nil => simp at hlen
    | cons a arest =>
      rw [exceptMapList]
      have h0 := hpt 0 (by simp) (by simp)
      simp only [List.get] at h0
      rw [h0]
      rw [ih (by simpa using hlen) (fun i ha hb => hpt (i + 1)
        (by simpa using Nat.succ_lt_succ ha) (by simpa using Nat.succ_lt_succ hb))]

theorem exceptMapList_map_ok {α β ε : Type} {g : α → Except ε β} {r : β → α}
    {bs : List β} (h : ∀ b ∈ bs, g (r b) = .ok b) :
    exceptMapList g (bs.map r) = .ok bs := by
  apply exceptMapList_of_pointwise (by simp)
  intro i ha hb
  have hmem : bs.get ⟨i, hb⟩ ∈ bs := List.get_mem bs i hb
  have := h _ hmem
  simpa using this

theorem parseDocument_ok {lns : List Line} {f : List StructureNode}
    (h : parseDocument lns = .ok f) :
    parseForest (lns.length + 1) 0 lns = .ok (f, []) ∧
    f.all (fun n => decide (n.tag ≠ "CONT")) = true := by
  rw [parseDocument] at h
  cases hp : parseForest (lns.length + 1) 0 lns with
  | error e => rw [hp] at h; exact absurd h (by simp)
  | ok pr =>
    obtain ⟨f2, rest⟩ := pr
    rw [hp] at h
    cases rest with
    | nil =>
      simp only [] at h
      split at h
      · rename_i hall
        rw [Except.ok.injEq] at h
        subst h
        exact ⟨rfl, hall⟩
      · exact absurd h (by simp)
    | cons l ls => exact absurd h (by simp)

/-- The decode-then-encode direction: decoding any text and re-encoding the
resulting forest reproduces the text up to CR/LF normalization. -/
theorem encodeText_decodeChars {reg : Registry} {text : List Char}
    {f : List StructureNode} (h : decodeChars reg text = .ok f) :
    encodeText f = normalizeEol text := by
  rw [decodeChars, decodeLines] at h
  cases hm : exceptMapList (parseLineChars reg) ((splitCh '\n' text).map dropCR) with
  | error e => rw [hm] at h; exact absurd h (by simp)
  | ok lns =>
    rw [hm] at h
    obtain ⟨hp, _⟩ := parseDocument_ok h
    have hsound := parseForest_sound _ _ _ _ _ hp
    rw [List.append_nil] at hsound
    have hrender : lns.map renderLine = (splitCh '\n' text).map dropCR :=
      exceptMapList_ok_map (fun a b hab => renderLine_parseLineChars hab) hm
    rw [encodeText, hsound, hrender, normalizeEol]

theorem mem_line_chars_renderLine {reg : Registry} {ln : Line} {c : Char}
    (hval : lineValid reg ln = true) (hc : c ∈ renderLine ln) :
    c = ' ' ∨ c ∈ toDecList ln.level ∨ c = '@' ∨
    (∃ b, ln.xref = some b ∧ c ∈ b) ∨ c ∈ ln.tag ∨ c ∈ ln.payload := by
  rw [renderLine] at hc
  rcases mem_joinCh hc with h1 | ⟨t, ht, hct⟩
  · exact Or.inl h1
  obtain ⟨lvl, xref, tag, payload⟩ := ln
  cases xref with
  | none =>
    rw [renderTokens] at ht
    rcases List.mem_cons.mp ht with h2 | h2
    · subst h2; exact Or.inr (Or.inl hct)
    rcases List.mem_cons.mp h2 with h3 | h3
    · subst h3; exact Or.inr (Or.inr (Or.inr (Or.inr (Or.inl hct))))
    · cases payload with
      | nil => simp [payTokens] at h3
      | cons p ps =>
        rw [payTokens] at h3
        have := mem_of_mem_splitCh hct h3
        have := mem_of_mem_escapeAt this
        exact Or.inr (Or.inr (Or.inr (Or.inr (Or.inr this))))
  | some b =>
    rw [renderTokens] at ht
    rcases List.mem_cons.mp ht with h2 | h2
    · subst h2; exact Or.inr (Or.inl hct)
    rcases List.mem_cons.mp h2 with h3 | h3
    · subst h3
      rcases List.mem_cons.mp hct with h4 | h4
      · exact Or.inr (Or.inr (Or.inl h4))
      rcases List.mem_append.mp h4 with h5 | h5
      · exact Or.inr (Or.inr (Or.inr (Or.inl ⟨b, rfl, h5⟩)))
      · simp only [List.mem_singleton] at h5
        exact Or.inr (Or.inr (Or.inl h5))
    rcases List.mem_cons.mp h3 with h4 | h4
    · subst h4; exact Or.inr (Or.inr (Or.inr (Or.inr (Or.inl hct))))
    · cases payload with
      | nil => simp [payTokens] at h4
      | cons p ps =>
        rw [payTokens] at h4
        have := mem_of_mem_splitCh hct h4
        have := mem_of_mem_escapeAt this
        exact Or.inr (Or.inr (Or.inr (Or.inr (Or.inr this))))

theorem renderLine_char_ok {reg : Registry} {ln : Line} {c : Char}
    (hval : lineValid reg ln = true) (hc : c ∈ renderLine ln) :
    c ≠ '\n' ∧ c ≠ '\r' := by
  have hp := mem_line_chars_renderLine hval hc
  obtain ⟨lvl, xref, tag, payload⟩ := ln
  cases xref with
  | none =>
    simp only [lineValid, Bool.and_eq_true, decide_eq_true_eq] at hval
    obtain ⟨⟨⟨⟨⟨_, _⟩, _⟩, htagall⟩, _⟩, hpayall⟩ := hval
    rcases hp with h1 | h1 | h1 | ⟨b, hb, h1⟩ | h1 | h1
    · subst h1; exact ⟨by decide, by decide⟩
    · have := toDecList_not_special h1
      exact ⟨this.2.1, this.2.2.1⟩
    · subst h1; exact ⟨by decide, by decide⟩
    · exact absurd hb (by simp)
    · have := List.all_eq_true.mp htagall _ h1
      simp only [Bool.and_eq_true, decide_eq_true_eq] at this
      exact ⟨this.1.2, this.2⟩
    · have := List.all_eq_true.mp hpayall _ h1
      simp only [Bool.and_eq_true, decide_eq_true_eq] at this
      exact this
  | some b0 =>
    simp only [lineValid, Bool.and_eq_true, decide_eq_true_eq] at hval
    obtain ⟨⟨⟨⟨⟨_, _⟩, _⟩, htagall⟩, hxref⟩, hpayall⟩ := hval
    rcases hp with h1 | h1 | h1 | ⟨b, hb, h1⟩ | h1 | h1
    · subst h1; exact ⟨by decide, by decide⟩
    · have := toDecList_not_special h1
      exact ⟨this.2.1, this.2.2.1⟩
    · subst h1; exact ⟨by decide, by decide⟩
    · simp only [Option.some.injEq] at hb
      subst hb
      have := List.all_eq_true.mp hxref.2 _ h1
      simp only [Bool.and_eq_true, decide_eq_true_eq] at this
      exact ⟨this.1.2, this.2⟩
    · have := List.all_eq_true.mp htagall _ h1
      simp only [Bool.and_eq_true, decide_eq_true_eq] at this
      exact ⟨this.1.2, this.2⟩
    · have := List.all_eq_true.mp hpayall _ h1
      simp only [Bool.and_eq_true, decide_eq_true_eq] at this
      exact this

theorem renderLine_no_nl_cr {reg : Registry} {ln : Line}
    (hval : lineValid reg ln = true) :
    '\n' ∉ renderLine ln ∧ '\r' ∉ renderLine ln :=
  ⟨fun hc => (renderLine_char_ok hval hc).1 rfl,
   fun hc => (renderLine_char_ok hval hc).2 rfl⟩

theorem dropCR_id {r : List Char} (h : '\r' ∉ r) : dropCR r = r := by
  rw [dropCR]
  split
  · rename_i hlast
    obtain ⟨hne, heq⟩ := List.mem_getLast?_eq_getLast
      (Option.mem_def.mpr hlast)
    exact absurd (heq ▸ List.getLast_mem hne) h
  · rfl

theorem forestLines_ne_nil {lvl : Nat} {f : List StructureNode} (h : f ≠ []) :
    forestLines lvl f ≠ [] := by
  cases f with
  | nil => exact absurd rfl h
  | cons n rest =>
    obtain ⟨tag, payload, xref, children⟩ := n
    rw [forestLines]
    simp

/-- Every line listed by the encoder for a valid forest is a valid line. -/
theorem forestLines_lineValid (reg : Registry) :
    ∀ (f : List StructureNode) (lvl : Nat),
    validForest reg f = true →
    ∀ ln ∈ forestLines lvl f, lineValid reg ln = true
  | [], lvl, hv => by
    intro ln hln
    rw [forestLines] at hln
    simp at hln
  | .mk tag payload xref children :: rest2, lvl, hv => by
    intro ln hln
    rw [validForest, Bool.and_eq_true] at hv
    obtain ⟨hvnode, hvrest⟩ := hv
    have hvch := validNode_children hvnode
    simp only [validNode, Bool.and_eq_true, decide_eq_true_eq] at hvnode
    obtain ⟨⟨⟨⟨⟨⟨⟨_, htagne⟩, htaghead⟩, htagall⟩, htagok⟩, hxa⟩, hpayall⟩, _⟩ :=
      hvnode
    rw [forestLines] at hln
    simp only [List.cons_append, List.append_assoc] at hln
    rcases List.mem_cons.mp hln with h1 | h1
    · subst h1
      simp only [lineValid, Bool.and_eq_true, decide_eq_true_eq]
      refine ⟨⟨⟨⟨⟨?_, htagne⟩, htaghead⟩, htagall⟩, ?_⟩, ?_⟩
      · rw [tagOk, stringEta]
        simp only [Bool.or_eq_true]
        rcases Bool.or_eq_true _ _ |>.mp htagok with h2 | h2
        · exact Or.inl (Or.inr h2)
        · exact Or.inr h2
      · cases xref with
        | none => rfl
        | some b => exact hxa
      · apply List.all_eq_true.mpr
        intro c hc
        have hheadmem : (splitCh '\n' payload.data).headI ∈
            splitCh '\n' payload.data := by
          cases hps : splitCh '\n' payload.data with
          | nil => exact absurd hps (splitCh_ne_nil _ _)
          | cons p ps =>
            simp only [List.headI]
            exact List.mem_cons_self p ps
        have hcin : c ∈ payload.data := mem_of_mem_splitCh hc hheadmem
        have hnl : c ≠ '\n' := fun heq =>
          not_mem_of_mem_splitCh hheadmem (heq ▸ hc)
        have hcr := List.all_eq_true.mp hpayall _ hcin
        simp only [decide_eq_true_eq] at hcr
        simp [hnl, hcr]
    rcases List.mem_append.mp h1 with h2 | h2
    · obtain ⟨q, hq, hql⟩ := List.mem_map.mp h2
      subst hql
      have hqtail : q ∈ splitCh '\n' payload.data := by
        have := List.tail_sublist (splitCh '\n' payload.data)
        exact this.mem hq
      simp only [lineValid, Bool.and_eq_true, decide_eq_true_eq]
      refine ⟨⟨⟨⟨⟨by rw [tagOk]; simp, by decide⟩, by decide⟩, by decide⟩,
        trivial⟩, ?_⟩
      apply List.all_eq_true.mpr
      intro c hc
      have hcin : c ∈ payload.data := mem_of_mem_splitCh hc hqtail
      have hnl : c ≠ '\n' := by
        intro heq
        subst heq
        exact not_mem_of_mem_splitCh hqtail hc
      have hcr := List.all_eq_true.mp hpayall _ hcin
      simp only [decide_eq_true_eq] at hcr
      simp [hnl, hcr]
    rcases List.mem_append.mp h2 with h3 | h3
    · exact forestLines_lineValid reg children (lvl + 1) hvch ln h3
    · exact forestLines_lineValid reg rest2 lvl hvrest ln h3

/-- The encode-then-decode direction: decoding the encoding of a nonempty
valid forest yields that forest back. -/
theorem decodeChars_encodeText {reg : Registry} {f : List StructureNode}
    (hv : validForest reg f = true) (hne : f ≠ []) :
    decodeChars reg (encodeText f) = .ok f := by
  have hlv : ∀ ln ∈ forestLines 0 f, lineValid reg ln = true :=
    forestLines_lineValid reg f 0 hv
  have hsplit : splitCh '\n' (encodeText f) = (forestLines 0 f).map renderLine := by
    rw [encodeText]
    apply splitCh_joinCh
    · intro heq
      exact forestLines_ne_nil hne (List.map_eq_nil_iff.mp heq)
    · intro t ht
      obtain ⟨ln, hln, hlt⟩ := List.mem_map.mp ht
      subst hlt
      exact (renderLine_no_nl_cr (hlv ln hln)).1
  rw [decodeChars, hsplit]
  have hdrop : ((forestLines 0 f).map renderLine).map dropCR =
      (forestLines 0 f).map renderLine := by
    rw [List.map_map]
    apply List.map_congr_left
    intro ln hln
    simp only [Function.comp_apply]
    exact congrArg _ rfl |>.trans (dropCR_id (renderLine_no_nl_cr (hlv ln hln)).2)
  rw [decodeLines, hdrop]
  rw [exceptMapList_map_ok (fun ln hln =>
    parseLineChars_renderLine (hlv ln hln))]
  simp only []
  rw [parseDocument.eq_def]
  have hcomplete := parseForest_complete reg f 0 []
    ((forestLines 0 f).length + 1) hv
    (fun l hl => by simp at hl)
    (by simp)
  rw [List.append_nil] at hcomplete
  rw [hcomplete]
  simp only []
  rw [if_pos (by
    apply List.all_eq_true.mpr
    intro n hn
    simpa using validNode_tag_ne_cont (validForest_all hv n hn))]

/-! ## Level discipline of decoded documents -/

theorem head_level_le_append {lvl bound : Nat} {g : List StructureNode}
    {rest : List Line} (h1 : lvl ≤ bound)
    (h2 : ∀ l, rest.head? = some l → l.level ≤ bound) :
    ∀ l, (forestLines lvl g ++ rest).head? = some l → l.level ≤ bound := by
  intro l hl
  cases hg : forestLines lvl g with
  | nil => rw [hg, List.nil_append] at hl; exact h2 l hl
  | cons x xs =>
    rw [hg] at hl
    simp only [List.cons_append, List.head?_cons, Option.some.injEq] at hl
    subst hl
    have : x.level = lvl := forestLines_head_level (by rw [hg]; rfl)
    omega

theorem chain_contLines {L : Nat} :
    ∀ (qs : List (List Char)) (tail : List Line),
    List.Chain' (fun a b => b.level ≤ a.level + 1) tail →
    (∀ l, tail.head? = some l → l.level ≤ L + 2) →
    List.Chain' (fun a b => b.level ≤ a.level + 1)
      (qs.map (fun q => (⟨L + 1, none, "CONT".data, q⟩ : Line)) ++ tail) := by
  intro qs
  induction qs with
  | nil => intro tail hc _; simpa using hc
  | cons q qs2 ih =>
    intro tail hc hh
    simp only [List.map_cons, List.cons_append]
    rw [List.chain'_cons']
    constructor
    · intro y hy
      rw [Option.mem_def] at hy
      cases qs2 with
      | nil =>
        simp only [List.map_nil, List.nil_append] at hy
        have := hh y hy
        simp only []
        omega
      | cons q2 qs3 =>
        simp only [List.map_cons, List.cons_append, List.head?_cons,
          Option.some.injEq] at hy
        subst hy
        simp only []
        omega
    · exact ih tail hc hh

/-- The level numbers of the encoder's line listing never jump by more than
one. -/
theorem chain_forestLines :
    ∀ (f : List StructureNode) (lvl : Nat) (rest : List Line),
    List.Chain' (fun a b => b.level ≤ a.level + 1) rest →
    (∀ l, rest.head? = some l → l.level ≤ lvl) →
    List.Chain' (fun a b => b.level ≤ a.level + 1) (forestLines lvl f ++ rest)
  | [], lvl, rest, hc, hh => by
    rw [forestLines, List.nil_append]
    exact hc
  | .mk tag payload xref children :: rest2, lvl, rest, hc, hh => by
    rw [forestLines]
    have hinner : List.Chain' (fun a b => b.level ≤ a.level + 1)
        (forestLines lvl rest2 ++ rest) :=
      chain_forestLines rest2 lvl rest hc hh
    have hinnerHead : ∀ l, (forestLines lvl rest2 ++ rest).head? = some l →
        l.level ≤ lvl :=
      head_level_le_append (le_refl lvl) hh
    have hmid : List.Chain' (fun a b => b.level ≤ a.level + 1)
        (forestLines (lvl + 1) children ++ (forestLines lvl rest2 ++ rest)) :=
      chain_forestLines children (lvl + 1) (forestLines lvl rest2 ++ rest)
        hinner (fun l hl => Nat.le_succ_of_le (hinnerHead l hl))
    have hmidHead : ∀ l, (forestLines (lvl + 1) children ++
        (forestLines lvl rest2 ++ rest)).head? = some l → l.level ≤ lvl + 2 :=
      head_level_le_append (by omega)
        (fun l hl => by have := hinnerHead l hl; omega)
    have hconts := chain_contLines (splitCh '\n' payload.data).tail
      (forestLines (lvl + 1) children ++ (forestLines lvl rest2 ++ rest))
      hmid hmidHead
    simp only [List.cons_append, List.append_assoc]
    rw [List.chain'_cons']
    constructor
    · intro y hy
      rw [Option.mem_def] at hy
      cases hq : (splitCh '\n' payload.data).tail with
      | nil =>
        rw [hq] at hy
        simp only [List.map_nil, List.nil_append] at hy
        have hle := head_level_le_append (le_refl (lvl + 1))
          (fun l hl => Nat.le_succ_of_le (hinnerHead l hl)) y hy
        simp only []
        omega
      | cons q qs =>
        rw [hq] at hy
        simp only [List.map_cons, List.cons_append, List.head?_cons,
          Option.some.injEq] at hy
        subst hy
        simp only []
        omega
    · simpa only [List.append_assoc] using hconts

/-- A successfully decoded document starts at level 0 and its level numbers
never increase by more than one from line to line (each line's nearest open
ancestor is the previous line). -/
theorem parseDocument_levels {lns : List Line} {f : List StructureNode}
    (h : parseDocument lns = .ok f) :
    (∀ l, lns.head? = some l → l.level = 0) ∧
    List.Chain' (fun a b => b.level ≤ a.level + 1) lns := by
  obtain ⟨hp, _⟩ := parseDocument_ok h
  have hsound := parseForest_sound _ _ _ _ _ hp
  rw [List.append_nil] at hsound
  subst hsound
  constructor
  · intro l hl
    exact forestLines_head_level hl
  · have := chain_forestLines f 0 [] (by simp) (fun l hl => by simp at hl)
    simpa using this

/-! ## Date parser invariants -/

theorem parseYearTok_ok {cal : Calendar} {tok : String} {y : Int}
    (h : parseYearTok cal tok = .ok y) : cal.epochs ≠ [] → y ≠ 0 := by
  rw [parseYearTok] at h
  cases hp : parseDec tok.data with
  | none => rw [hp] at h; exact absurd h (by simp)
  | some n =>
    rw [hp] at h
    simp only [] at h
    split at h
    · exact absurd h (by simp)
    · rename_i hcond
      rw [Except.ok.injEq] at h
      subst h
      intro hep
      have hn : n ≠ 0 := fun h0 => hcond ⟨hep, h0⟩
      simpa [Int.ofNat_eq_zero] using hn

theorem monthLookup_mem {cal : Calendar} {tok m : String}
    (h : monthLookup cal tok = some m) : ∃ gm ∈ cal.months, gm.tag = m := by
  rw [monthLookup] at h
  cases hf : cal.months.find? (fun gm => eqIgnoreCase gm.tag tok) with
  | none => rw [hf] at h; simp at h
  | some gm =>
    rw [hf] at h
    simp only [Option.map, Option.some.injEq] at h
    subst h
    exact ⟨gm, List.mem_of_find?_eq_some hf, rfl⟩

theorem parseSingleDate_ok {cal : Calendar} {toks : List String}
    {sd : SingleDate} (h : parseSingleDate cal toks = .ok sd) :
    (∀ m, sd.month = some m → ∃ gm ∈ cal.months, gm.tag = m) ∧
    (∀ e, sd.epoch = some e → e ∈ cal.epochs) ∧
    (cal.epochs ≠ [] → sd.year ≠ 0) := by
  rw [parseSingleDate.eq_def] at h
  split at h
  · rename_i y
    cases hy : parseYearTok cal y with
    | error e => rw [hy] at h; exact absurd h (by simp)
    | ok yr =>
      rw [hy] at h
      rw [Except.ok.injEq] at h
      subst h
      exact ⟨fun m hm => by simp at hm, fun e he => by simp at he,
        parseYearTok_ok hy⟩
  · rename_i a b
    split at h
    · rename_i heb
      cases hy : parseYearTok cal a with
      | error e => rw [hy] at h; exact absurd h (by simp)
      | ok yr =>
        rw [hy] at h
        rw [Except.ok.injEq] at h
        subst h
        exact ⟨fun m hm => by simp at hm,
          fun e he => by
            simp only [Option.some.injEq] at he
            subst he
            exact heb,
          parseYearTok_ok hy⟩
    · cases hm : monthLookup cal a with
      | none => rw [hm] at h; exact absurd h (by simp)
      | some m =>
        rw [hm] at h
        cases hy : parseYearTok cal b with
        | error e => rw [hy] at h; exact absurd h (by simp)
        | ok yr =>
          rw [hy] at h
          rw [Except.ok.injEq] at h
          subst h
          exact ⟨fun m2 hm2 => by
              simp only [Option.some.injEq] at hm2
              subst hm2
              exact monthLookup_mem hm,
            fun e he => by simp at he,
            parseYearTok_ok hy⟩
  · rename_i a b c
    split at h
    · rename_i hec
      cases hm : monthLookup cal a with
      | none => rw [hm] at h; exact absurd h (by simp)
      | some m =>
        rw [hm] at h
        cases hy : parseYearTok cal b with
        | error e => rw [hy] at h; exact absurd h (by simp)
        | ok yr =>
          rw [hy] at h
          rw [Except.ok.injEq] at h
          subst h
          exact ⟨fun m2 hm2 => by
              simp only [Option.some.injEq] at hm2
              subst hm2
              exact monthLookup_mem hm,
            fun e he => by
              simp only [Option.some.injEq] at he
              subst he
              exact hec,
            parseYearTok_ok hy⟩
    · cases hd : parseDec a.data with
      | none => rw [hd] at h; exact absurd h (by simp)
      | some d =>
        rw [hd] at h
        cases hm : monthLookup cal b with
        | none => rw [hm] at h; exact absurd h (by simp)
        | some m =>
          rw [hm] at h
          cases hy : parseYearTok cal c with
          | error e => rw [hy] at h; exact absurd h (by simp)
          | ok yr =>
            rw [hy] at h
            rw [Except.ok.injEq] at h
            subst h
            exact ⟨fun m2 hm2 => by
                simp only [Option.some.injEq] at hm2
                subst hm2
                exact monthLookup_mem hm,
              fun e he => by simp at he,
              parseYearTok_ok hy⟩
  · rename_i a b c e
    split at h
    · rename_i hee
      cases hd : parseDec a.data with
      | none => rw [hd] at h; exact absurd h (by simp)
      | some d =>
        rw [hd] at h
        cases hm : monthLookup cal b with
        | none => rw [hm] at h; exact absurd h (by simp)
        | some m =>
          rw [hm] at h
          cases hy : parseYearTok cal c with
          | error e2 => rw [hy] at h; exact absurd h (by simp)
          | ok yr =>
            rw [hy] at h
            rw [Except.ok.injEq] at h
            subst h
            exact ⟨fun m2 hm2 => by
                simp only [Option.some.injEq] at hm2
                subst hm2
                exact monthLookup_mem hm,
              fun e2 he2 => by
                simp only [Option.some.injEq] at he2
                subst he2
                exact hee,
              parseYearTok_ok hy⟩
    · exact absurd h (by simp)
  · exact absurd h (by simp)

theorem mkDateValue_ok {cal : Calendar} {q : DateQualifier} {sd : SingleDate}
    (hsd : (∀ m, sd.month = some m → ∃ gm ∈ cal.months, gm.tag = m) ∧
      (∀ e, sd.epoch = some e → e ∈ cal.epochs) ∧
      (cal.epochs ≠ [] → sd.year ≠ 0)) :
    (∀ m, (mkDateValue cal q sd).month = some m →
      ∃ gm ∈ cal.months, gm.tag = m) ∧
    (∀ e, (mkDateValue cal q sd).epoch = some e → e ∈ cal.epochs) ∧
    (cal.epochs ≠ [] → (mkDateValue cal q sd).year ≠ 0) ∧
    (mkDateValue cal q sd).time = none ∧
    (mkDateValue cal q sd).qualifier = q := by
  exact ⟨hsd.1, hsd.2.1, hsd.2.2, rfl, rfl⟩

theorem parseDateTokens_ok {cal : Calendar} {toks : List String} {d : DateValue}
    (h : parseDateTokens cal toks = .ok d) :
    (∀ m, d.month = some m → ∃ gm ∈ cal.months, gm.tag = m) ∧
    (∀ e, d.epoch = some e → e ∈ cal.epochs) ∧
    (cal.epochs ≠ [] → d.year ≠ 0) ∧
    d.time = none := by
  rw [parseDateTokens.eq_def] at h
  split at h
  case h_1 rest =>
    cases hs : parseSingleDate cal rest with
    | error e => rw [hs] at h; exact absurd h (by simp)
    | ok sd =>
      rw [hs] at h
      rw [Except.ok.injEq] at h
      subst h
      exact ⟨(mkDateValue_ok (parseSingleDate_ok hs)).1,
        (mkDateValue_ok (parseSingleDate_ok hs)).2.1,
        (mkDateValue_ok (parseSingleDate_ok hs)).2.2.1,
        (mkDateValue_ok (parseSingleDate_ok hs)).2.2.2.1⟩
  case h_2 rest =>
    cases hs : parseSingleDate cal rest with
    | error e => rw [hs] at h; exact absurd h (by simp)
    | ok sd =>
      rw [hs] at h
      rw [Except.ok.injEq] at h
      subst h
      exact ⟨(mkDateValue_ok (parseSingleDate_ok hs)).1,
        (mkDateValue_ok (parseSingleDate_ok hs)).2.1,
        (mkDateValue_ok (parseSingleDate_ok hs)).2.2.1,
        (mkDateValue_ok (parseSingleDate_ok hs)).2.2.2.1⟩
  case h_3 rest =>
    cases hs : parseSingleDate cal rest with
    | error e => rw [hs] at h; exact absurd h (by simp)
    | ok sd =>
      rw [hs] at h
      rw [Except.ok.injEq] at h
      subst h
      exact ⟨(mkDateValue_ok (parseSingleDate_ok hs)).1,
        (mkDateValue_ok (parseSingleDate_ok hs)).2.1,
        (mkDateValue_ok (parseSingleDate_ok hs)).2.2.1,
        (mkDateValue_ok (parseSingleDate_ok hs)).2.2.2.1⟩
  case h_4 rest =>
    cases hs : parseSingleDate cal rest with
    | error e => rw [hs] at h; exact absurd h (by simp)
    | ok sd =>
      rw [hs] at h
      rw [Except.ok.injEq] at h
      subst h
      exact ⟨(mkDateValue_ok (parseSingleDate_ok hs)).1,
        (mkDateValue_ok (parseSingleDate_ok hs)).2.1,
        (mkDateValue_ok (parseSingleDate_ok hs)).2.2.1,
        (mkDateValue_ok (parseSingleDate_ok hs)).2.2.2.1⟩
  case h_5 rest =>
    cases hs : parseSingleDate cal rest with
    | error e => rw [hs] at h; exact absurd h (by simp)
    | ok sd =>
      rw [hs] at h
      rw [Except.ok.injEq] at h
      subst h
      exact ⟨(mkDateValue_ok (parseSingleDate_ok hs)).1,
        (mkDateValue_ok (parseSingleDate_ok hs)).2.1,
        (mkDateValue_ok (parseSingleDate_ok hs)).2.2.1,
        (mkDateValue_ok (parseSingleDate_ok hs)).2.2.2.1⟩
  case h_6 rest =>
    cases hw : splitAtWord "AND" rest with
    | none => rw [hw] at h; exact absurd h (by simp)
    | some p =>
      obtain ⟨a, b⟩ := p
      rw [hw] at h
      simp only [] at h
      cases hs : parseSingleDate cal a with
      | error e => rw [hs] at h; exact absurd h (by simp)
      | ok sd =>
        rw [hs] at h
        cases hs2 : parseSingleDate cal b with
        | error e => rw [hs2] at h; exact absurd h (by simp)
        | ok sd2 =>
          rw [hs2] at h
          rw [Except.ok.injEq] at h
          subst h
          exact ⟨(mkDateValue_ok (parseSingleDate_ok hs)).1,
            (mkDateValue_ok (parseSingleDate_ok hs)).2.1,
            (mkDateValue_ok (parseSingleDate_ok hs)).2.2.1,
            (mkDateValue_ok (parseSingleDate_ok hs)).2.2.2.1⟩
  case h_7 rest =>
    cases hw : splitAtWord "TO" rest with
    | none =>
      rw [hw] at h
      simp only [] at h
      cases hs : parseSingleDate cal rest with
      | error e => rw [hs] at h; exact absurd h (by simp)
      | ok sd =>
        rw [hs] at h
        rw [Except.ok.injEq] at h
        subst h
        exact ⟨(mkDateValue_ok (parseSingleDate_ok hs)).1,
          (mkDateValue_ok (parseSingleDate_ok hs)).2.1,
          (mkDateValue_ok (parseSingleDate_ok hs)).2.2.1,
          (mkDateValue_ok (parseSingleDate_ok hs)).2.2.2.1⟩
    | some p =>
      obtain ⟨a, b⟩ := p
      rw [hw] at h
      simp only [] at h
      cases hs : parseSingleDate cal a with
      | error e => rw [hs] at h; exact absurd h (by simp)
      | ok sd =>
        rw [hs] at h
        cases hs2 : parseSingleDate cal b with
        | error e => rw [hs2] at h; exact absurd h (by simp)
        | ok sd2 =>
          rw [hs2] at h
          rw [Except.ok.injEq] at h
          subst h
          exact ⟨(mkDateValue_ok (parseSingleDate_ok hs)).1,
            (mkDateValue_ok (parseSingleDate_ok hs)).2.1,
            (mkDateValue_ok (parseSingleDate_ok hs)).2.2.1,
            (mkDateValue_ok (parseSingleDate_ok hs)).2.2.2.1⟩
  case h_8 =>
    cases hs : parseSingleDate cal toks with
    | error e => rw [hs] at h; exact absurd h (by simp)
    | ok sd =>
      rw [hs] at h
      rw [Except.ok.injEq] at h
      subst h
      exact ⟨(mkDateValue_ok (parseSingleDate_ok hs)).1,
        (mkDateValue_ok (parseSingleDate_ok hs)).2.1,
        (mkDateValue_ok (parseSingleDate_ok hs)).2.2.1,
        (mkDateValue_ok (parseSingleDate_ok hs)).2.2.2.1⟩

/-- `validateDateValue` succeeds exactly on values without the
period-with-time conflict, and returns its input unchanged. -/
theorem validateDateValue_ok {d d2 : DateValue}
    (h : validateDateValue d = .ok d2) :
    d2 = d ∧ ¬(isPeriodQualifier d.qualifier = true ∧ d.time.isSome = true) := by
  rw [validateDateValue] at h
  split at h
  · exact absurd h (by simp)
  · rename_i hc
    rw [Except.ok.injEq] at h
    exact ⟨h.symm, fun hct => hc ⟨hct.1, hct.2⟩⟩

theorem validateDateValue_error {d : DateValue}
    (h1 : isPeriodQualifier d.qualifier = true) (h2 : d.time.isSome = true) :
    validateDateValue d = .error .periodWithTime := by
  rw [validateDateValue, if_pos ⟨h1, h2⟩]

theorem parseDateValueFull_ok {cal : Calendar} {payload : String}
    {time : Option String} {d : DateValue}
    (h : parseDateValueFull cal payload time = .ok d) :
    (∀ m, d.month = some m → ∃ gm ∈ cal.months, gm.tag = m) ∧
    (∀ e, d.epoch = some e → e ∈ cal.epochs) ∧
    (cal.epochs ≠ [] → d.year ≠ 0) ∧
    d.time = time ∧
    ¬(isPeriodQualifier d.qualifier = true ∧ d.time.isSome = true) := by
  rw [parseDateValueFull] at h
  cases hp : parseDatePayload cal payload with
  | error e => rw [hp] at h; exact absurd h (by simp)
  | ok d0 =>
    rw [hp] at h
    rw [parseDatePayload] at hp
    have hinv := parseDateTokens_ok hp
    obtain ⟨hd2, hnc⟩ := validateDateValue_ok h
    subst hd2
    exact ⟨hinv.1, hinv.2.1, hinv.2.2.1, rfl, hnc⟩

/-! ## Cardinality characterization and registry failure propagation -/

theorem parseCardinalityChars_isSome {l : List Char} :
    (parseCardinalityChars l).isSome = true ↔
      l = "{0:1}".data ∨ l = "{0:M}".data ∨ l = "{1:1}".data ∨
        l = "{1:M}".data := by
  constructor
  · intro h
    rw [parseCardinalityChars.eq_def] at h
    split at h
    · rename_i a m colon x b
      split at h
      · rename_i hc
        obtain ⟨ha, hcolon, hb⟩ := hc
        subst ha; subst hcolon; subst hb
        by_cases hm0 : m = '0'
        · by_cases hx1 : x = '1'
          · subst hm0; subst hx1; exact Or.inl rfl
          · by_cases hxM : x = 'M'
            · subst hm0; subst hxM; exact Or.inr (Or.inl rfl)
            · simp [hx1, hxM] at h
        · by_cases hm1 : m = '1'
          · by_cases hx1 : x = '1'
            · subst hm1; subst hx1; exact Or.inr (Or.inr (Or.inl rfl))
            · by_cases hxM : x = 'M'
              · subst hm1; subst hxM; exact Or.inr (Or.inr (Or.inr rfl))
              · simp [hx1, hxM] at h
          · simp [hm0, hm1] at h
      · exact absurd h (by simp)
    · exact absurd h (by simp)
  · intro h
    rcases h with h | h | h | h <;> subst h <;> decide

theorem parseCardinality_isSome {s : String} :
    (parseCardinality s).isSome = true ↔
      s = "{0:1}" ∨ s = "{0:M}" ∨ s = "{1:1}" ∨ s = "{1:M}" := by
  rw [parseCardinality, parseCardinalityChars_isSome]
  constructor
  · intro h
    rcases h with h | h | h | h
    · exact Or.inl (stringDataInj h)
    · exact Or.inr (Or.inl (stringDataInj h))
    · exact Or.inr (Or.inr (Or.inl (stringDataInj h)))
    · exact Or.inr (Or.inr (Or.inr (stringDataInj h)))
  · intro h
    rcases h with h | h | h | h <;> subst h
    · exact Or.inl rfl
    · exact Or.inr (Or.inl rfl)
    · exact Or.inr (Or.inr (Or.inl rfl))
    · exact Or.inr (Or.inr (Or.inr rfl))

theorem buildSubs_error {subs : List (String × String)} {k c : String}
    (hkc : (k, c) ∈ subs) (hc : parseCardinality c = none) :
    ∃ e, buildSubs subs = .error e := by
  induction subs with
  | nil => exact absurd hkc (by simp)
  | cons p rest ih =>
    obtain ⟨k2, c2⟩ := p
    rcases List.mem_cons.mp hkc with h | h
    · rw [Prod.mk.injEq] at h
      obtain ⟨hk, hc2⟩ := h
      subst hc2
      exact ⟨.badCardinality c, by rw [buildSubs, hc]⟩
    · rw [buildSubs]
      cases hp : parseCardinality c2 with
      | none => exact ⟨.badCardinality c2, rfl⟩
      | some cc =>
        obtain ⟨e, he⟩ := ih h
        exact ⟨e, by rw [he]⟩

theorem buildEntries_error {data : List RawEntry} {r : RawEntry} {e : SpecLoadError}
    (hr : r ∈ data) (he : buildSubs r.substructures = .error e) :
    ∃ e2, buildEntries data = .error e2 := by
  induction data with
  | nil => exact absurd hr (by simp)
  | cons r2 rest ih =>
    rcases List.mem_cons.mp hr with h | h
    · subst h
      exact ⟨e, by rw [buildEntries, he]⟩
    · rw [buildEntries]
      cases hs : buildSubs r2.substructures with
      | error e3 => exact ⟨e3, rfl⟩
      | ok subs =>
        obtain ⟨e2, he2⟩ := ih h
        exact ⟨e2, by rw [he2]⟩

theorem build_registry_error {data : List RawEntry} {r : RawEntry} {k c : String}
    (hr : r ∈ data) (hkc : (k, c) ∈ r.substructures)
    (hc : parseCardinality c = none) :
    ∃ err, build_registry data = .error err := by
  rw [build_registry]
  split
  · obtain ⟨e, he⟩ := buildSubs_error hkc hc
    exact buildEntries_error hr he
  · exact ⟨.duplicateTag, rfl⟩

/-! ## attach_child characterization -/

theorem cardAllows_iff {c : CardinalityConstraint} {n : Nat} :
    cardAllows c n = true ↔ (c.max = CardMax.one → n < 1) := by
  rw [cardAllows]
  cases c.max with
  | one => simp
  | unbounded => simp

theorem attach_child_ok (reg : Registry) (parent : StructureNode)
    (tag payload : String) (xref : Option String) :
    (∃ node, attach_child reg parent tag payload xref = .ok node) ↔
      ∃ c, assocLookup (permitted_children reg parent.tag) tag = some c ∧
        cardAllows c (countTag parent.children tag) = true := by
  cases hl : assocLookup (permitted_children reg parent.tag) tag with
  | none =>
    constructor
    · rintro ⟨node, hnode⟩
      rw [attach_child, hl] at hnode
      exact absurd hnode (by simp)
    · rintro ⟨c, hc, -⟩
      exact absurd hc (by simp)
  | some c =>
    by_cases hca : cardAllows c (countTag parent.children tag) = true
    · constructor
      · intro _
        exact ⟨c, rfl, hca⟩
      · intro _
        refine ⟨.mk parent.tag parent.payload parent.xref
          (parent.children ++ [.mk tag payload xref []]), ?_⟩
        rw [attach_child, hl]
        simp only []
        rw [if_pos hca]
    · constructor
      · rintro ⟨node, hnode⟩
        rw [attach_child, hl] at hnode
        simp only [] at hnode
        rw [if_neg hca] at hnode
        exact absurd hnode (by simp)
      · rintro ⟨c2, hc2, hca2⟩
        rw [Option.some.injEq] at hc2
        subst hc2
        exact absurd hca2 hca

theorem attach_child_invalid (reg : Registry) (parent : StructureNode)
    (tag payload : String) (xref : Option String) :
    attach_child reg parent tag payload xref = .error (.invalidChild tag) ↔
      assocLookup (permitted_children reg parent.tag) tag = none := by
  cases hl : assocLookup (permitted_children reg parent.tag) tag with
  | none =>
    constructor
    · intro _
      rfl
    · intro _
      rw [attach_child, hl]
  | some c =>
    constructor
    · intro h
      rw [attach_child, hl] at h
      simp only [] at h
      split at h
      · exact absurd h (by simp)
      · rw [Except.error.injEq] at h
        exact absurd h (by simp)
    · intro h
      exact absurd h (by simp)

theorem attach_child_card (reg : Registry) (parent : StructureNode)
    (tag payload : String) (xref : Option String) :
    attach_child reg parent tag payload xref =
        .error (.cardinalityExceeded tag) ↔
      ∃ c, assocLookup (permitted_children reg parent.tag) tag = some c ∧
        cardAllows c (countTag parent.children tag) = false := by
  cases hl : assocLookup (permitted_children reg parent.tag) tag with
  | none =>
    constructor
    · intro h
      rw [attach_child, hl] at h
      rw [Except.error.injEq] at h
      exact absurd h (by simp)
    · rintro ⟨c, hc, -⟩
      exact absurd hc (by simp)
  | some c =>
    by_cases hca : cardAllows c (countTag parent.children tag) = true
    · constructor
      · intro h
        rw [attach_child, hl] at h
        simp only [] at h
        rw [if_pos hca] at h
        exact absurd h (by simp)
      · rintro ⟨c2, hc2, hca2⟩
        rw [Option.some.injEq] at hc2
        subst hc2
        rw [hca] at hca2
        exact absurd hca2 (by simp)
    · constructor
      · intro _
        exact ⟨c, rfl, by simpa using hca⟩
      · intro _
        rw [attach_child, hl]
        simp only []
        rw [if_neg hca]

theorem is_extension_tag_iff (t : String) :
    is_extension_tag t = true ↔ ∃ rest, t.data = '_' :: rest := by
  rw [is_extension_tag.eq_def]
  split
  · rename_i rest heq
    simp only [true_iff]
    exact ⟨rest, heq⟩
  · rename_i hne
    simp only [Bool.false_eq_true, false_iff]
    rintro ⟨rest, hrest⟩
    exact hne rest hrest

/-- A sample wire-format text used to exercise the round-trip contract: an
xref-bearing record, an escaped `@@`, a multi-line payload continued with
`CONT`, and one CRLF line ending. -/
def demoText : List Char :=
  "0 @F1@ FAM\r\n1 DATE ab@@cd\n2 PHRASE line1\n3 CONT line2\n1 TIME 10:00".data

/-- The forest `demoText` decodes to. -/
def demoForest : List StructureNode :=
  [.mk "FAM" "" (some "F1")
    [.mk "DATE" "ab@cd" none
      [.mk "PHRASE" ("line1" ++ "\n" ++ "line2") none []],
     .mk "TIME" "10:00" none []]]

/-! ## The claims -/

/-- C1: for every parent node, tag and registry, `attach_child` succeeds
exactly when the tag appears in `permitted_children` of the parent's tag and
the count of existing same-tagged children is strictly below the declared
max; it fails with `invalidChild` exactly when the tag is not permitted, and
with `cardinalityExceeded` exactly when the tag is permitted but the max is
reached. -/
theorem attach_child_characterization (reg : Registry) (parent : StructureNode)
    (tag payload : String) (xref : Option String) :
    ((∃ node, attach_child reg parent tag payload xref = .ok node) ↔
      ∃ c, assocLookup (permitted_children reg parent.tag) tag = some c ∧
        (c.max = CardMax.one → countTag parent.children tag < 1)) ∧
    (attach_child reg parent tag payload xref = .error (.invalidChild tag) ↔
      assocLookup (permitted_children reg parent.tag) tag = none) ∧
    (attach_child reg parent tag payload xref =
        .error (.cardinalityExceeded tag) ↔
      ∃ c, assocLookup (permitted_children reg parent.tag) tag = some c ∧
        ¬(c.max = CardMax.one → countTag parent.children tag < 1)) := by
  refine ⟨?_, attach_child_invalid reg parent tag payload xref, ?_⟩
  · rw [attach_child_ok]
    constructor
    · rintro ⟨c, hc, hca⟩
      exact ⟨c, hc, cardAllows_iff.mp hca⟩
    · rintro ⟨c, hc, hm⟩
      exact ⟨c, hc, cardAllows_iff.mpr hm⟩
  · rw [attach_child_card]
    constructor
    · rintro ⟨c, hc, hca⟩
      refine ⟨c, hc, fun hm => ?_⟩
      rw [cardAllows_iff.mpr hm] at hca
      exact absurd hca (by simp)
    · rintro ⟨c, hc, hm⟩
      refine ⟨c, hc, ?_⟩
      cases hca : cardAllows c (countTag parent.children tag) with
      | false => rfl
      | true => exact absurd (cardAllows_iff.mp hca) hm

theorem attach_child_characterization_witness :
    ∃ node, attach_child gedcomRegistry (.mk "DATE" "" none [])
      "PHRASE" "p" none = .ok node :=
  (attach_child_characterization gedcomRegistry (.mk "DATE" "" none [])
    "PHRASE" "p" none).1.mpr ⟨⟨0, CardMax.one⟩, rfl, by decide⟩

/-- C2: the codec round-trip contract: decoding a well-formed text and
re-encoding reproduces the text up to CR/LF line-ending normalization, and
a validated nonempty forest decodes back from its encoding to exactly the
same forest (same tags, payloads, xrefs and ordered children). -/
theorem codec_round_trip :
    (∀ (reg : Registry) (text : List Char) (f : List StructureNode),
      decodeChars reg text = .ok f → encodeText f = normalizeEol text) ∧
    (∀ (reg : Registry) (f : List StructureNode),
      validForest reg f = true → f ≠ [] →
      decodeChars reg (encodeText f) = .ok f) :=
  ⟨fun _ _ _ h => encodeText_decodeChars h,
   fun _ _ hv hne => decodeChars_encodeText hv hne⟩

theorem codec_round_trip_witness :
    encodeText demoForest = normalizeEol demoText ∧
    decodeChars gedcomRegistry (encodeText demoForest) = .ok demoForest :=
  ⟨codec_round_trip.1 gedcomRegistry demoText demoForest (by rfl),
   codec_round_trip.2 gedcomRegistry demoForest
     (by simp [demoForest, validForest, validNode, lookup, lineValid,
        is_extension_tag]; decide)
     (by simp [demoForest])⟩

/-- C3: under an epoch-bearing calendar the parser never produces year 0 and
rejects a literal year 0 with an epoch marker; `"1 BC"` parses to year 1 with
epoch `BC`, whose denoted proleptic year `1 - 1 = 0` is the immediate
predecessor of year 1, and `"0 BC"` is rejected with `yearZero`. -/
theorem year_zero_rejected :
    (∀ (cal : Calendar) (payload : String) (time : Option String)
      (d : DateValue), cal.epochs ≠ [] →
      parseDateValueFull cal payload time = .ok d → d.year ≠ 0) ∧
    parseDateValueFull myGregorian "1 BC" none =
      .ok ⟨"_MYGREGORIAN", 1, none, none, some "BC", none, .exact, none⟩ ∧
    denotedYear ⟨"_MYGREGORIAN", 1, none, none, some "BC", none, .exact, none⟩
      = 0 ∧
    parseDateValueFull myGregorian "0 BC" none = .error .yearZero :=
  ⟨fun _ _ _ _ hep h => (parseDateValueFull_ok h).2.2.1 hep,
   rfl, by decide, rfl⟩

theorem year_zero_rejected_witness :
    (⟨"_MYGREGORIAN", 1, none, none, some "BC", none, .exact, none⟩ :
      DateValue).year ≠ 0 :=
  year_zero_rejected.1 myGregorian "1 BC" none _ (by decide) (by rfl)

/-- C4 (amended): a `DateValue` accepted by the full pipeline never carries
both the period qualifier (`FROM`/`TO`, the `DatePeriod` of the source
specification) and a time component; that conflict is rejected with
`InvalidDateError.periodWithTime` at validation time, while the period
payload on its own parses fine.  (The original claim extended the exclusion
to range qualifiers such as `BET … AND …`; see the counterexample.) -/
theorem period_time_validation :
    (∀ (cal : Calendar) (payload : String) (time : Option String)
      (d : DateValue), parseDateValueFull cal payload time = .ok d →
      ¬(isPeriodQualifier d.qualifier = true ∧ d.time.isSome = true)) ∧
    (∀ d : DateValue, isPeriodQualifier d.qualifier = true →
      d.time.isSome = true →
      validateDateValue d = .error .periodWithTime) ∧
    parseDateValueFull myGregorian "FROM 1 _MYJAN 2020" (some "10:00:00") =
      .error .periodWithTime ∧
    parseDatePayload myGregorian "FROM 1 _MYJAN 2020" =
      .ok ⟨"_MYGREGORIAN", 2020, some "_MYJAN", some 1, none, none,
        .fromTo, none⟩ :=
  ⟨fun _ _ _ _ h => (parseDateValueFull_ok h).2.2.2.2,
   fun _ h1 h2 => validateDateValue_error h1 h2, rfl, rfl⟩

theorem period_time_validation_witness :
    validateDateValue
      ⟨"_MYGREGORIAN", 2020, some "_MYJAN", some 1, none, some "10:00:00",
        .fromTo, none⟩ = .error .periodWithTime :=
  period_time_validation.2.1 _ rfl rfl

/-- C4 counterexample: a range-qualified date (`BET … AND …`) is accepted by
the full pipeline together with a time component, so the claim's
"period/range-qualified never carries time" fails for ranges — only the
period form is excluded. -/
theorem period_time_counterexample :
    parseDateValueFull myGregorian "BET 1 _MYJAN 2020 AND 5 _MYFEB 2020"
        (some "10:00:00") =
      .ok ⟨"_MYGREGORIAN", 2020, some "_MYJAN", some 1, none,
        some "10:00:00", .between, none⟩ ∧
    isPeriodOrRange DateQualifier.between = true ∧
    (⟨"_MYGREGORIAN", 2020, some "_MYJAN", some 1, none, some "10:00:00",
        .between, none⟩ : DateValue).time.isSome = true :=
  ⟨rfl, rfl, rfl⟩

/-- C5: cardinality strings parse exactly for min ∈ {0,1} and max ∈ {1, M}
with `M` meaning unbounded, and a substructure entry whose cardinality
string does not parse makes `build_registry` fail with a `SpecLoadError`. -/
theorem cardinality_parsing :
    (∀ s : String, (parseCardinality s).isSome = true ↔
      (s = "{0:1}" ∨ s = "{0:M}" ∨ s = "{1:1}" ∨ s = "{1:M}")) ∧
    parseCardinality "{0:1}" = some ⟨0, CardMax.one⟩ ∧
    parseCardinality "{0:M}" = some ⟨0, CardMax.unbounded⟩ ∧
    parseCardinality "{1:1}" = some ⟨1, CardMax.one⟩ ∧
    parseCardinality "{1:M}" = some ⟨1, CardMax.unbounded⟩ ∧
    (∀ (data : List RawEntry) (r : RawEntry) (k c : String),
      r ∈ data → (k, c) ∈ r.substructures → parseCardinality c = none →
      ∃ err, build_registry data = .error err) :=
  ⟨fun _ => parseCardinality_isSome, rfl, rfl, rfl, rfl,
   fun _ _ _ _ hr hkc hc => build_registry_error hr hkc hc⟩

theorem cardinality_parsing_witness :
    ∃ err, build_registry [⟨"X", [("k", "{2:1}")]⟩] = .error err :=
  cardinality_parsing.2.2.2.2.2 [⟨"X", [("k", "{2:1}")]⟩]
    ⟨"X", [("k", "{2:1}")]⟩ "k" "{2:1}" (by simp) (by simp) (by rfl)

/-- C6: `is_extension_tag` holds exactly for tags whose text starts with an
underscore, independent of registry membership: it accepts the registered
`_DATELIST` and the unregistered `_NOTINREG` alike, and rejects the
registered standard tag `DATE`. -/
theorem extension_tag_convention :
    (∀ t : String, is_extension_tag t = true ↔ ∃ rest, t.data = '_' :: rest) ∧
    (lookup gedcomRegistry "_DATELIST").isSome = true ∧
    is_extension_tag "_DATELIST" = true ∧
    is_extension_tag "_MYGREGORIAN" = true ∧
    is_extension_tag "DATE" = false ∧
    lookup gedcomRegistry "_NOTINREG" = none ∧
    is_extension_tag "_NOTINREG" = true :=
  ⟨is_extension_tag_iff, rfl, rfl, rfl, rfl, rfl, rfl⟩

theorem extension_tag_convention_witness :
    ∃ rest, ("_NOTINREG" : String).data = '_' :: rest :=
  (extension_tag_convention.1 "_NOTINREG").mp rfl

/-- C7: a successfully decoded line list starts at level 0 and never jumps
by more than one level from one line to the next, so any text with a larger
jump fails; decoding `"0 FAM\n2 DATE x"` fails with `levelJump 2 1`. -/
theorem level_jump_rejected :
    (∀ (lns : List Line) (f : List StructureNode),
      parseDocument lns = .ok f →
      (∀ l, lns.head? = some l → l.level = 0) ∧
      List.Chain' (fun a b => b.level ≤ a.level + 1) lns) ∧
    decodeChars gedcomRegistry ("0 FAM\n2 DATE x").data =
      .error (.levelJump 2 1) :=
  ⟨fun _ _ h => parseDocument_levels h, rfl⟩

theorem level_jump_rejected_witness :
    List.Chain' (fun a b => b.level ≤ a.level + 1)
      ([⟨0, none, "FAM".data, []⟩, ⟨1, none, "DATE".data, "x".data⟩] :
        List Line) :=
  (level_jump_rejected.1
    [⟨0, none, "FAM".data, []⟩, ⟨1, none, "DATE".data, "x".data⟩]
    [.mk "FAM" "" none [.mk "DATE" "x" none []]] (by rfl)).2

/-- C8: in the registry built from the supplied specification data,
`permitted_children "DATE"` is exactly the ordered two-entry mapping
`PHRASE ↦ {0:1}, TIME ↦ {0:1}`; hence attaching to a `DATE` parent succeeds
only for `PHRASE` or `TIME` and only when no child of that tag exists yet. -/
theorem date_permitted_children :
    permitted_children gedcomRegistry "DATE" =
      [("PHRASE", ⟨0, CardMax.one⟩), ("TIME", ⟨0, CardMax.one⟩)] ∧
    (∀ (parent : StructureNode) (tag payload : String)
      (xref : Option String), parent.tag = "DATE" →
      (∃ node, attach_child gedcomRegistry parent tag payload xref =
        .ok node) →
      (tag = "PHRASE" ∨ tag = "TIME") ∧
        countTag parent.children tag < 1) := by
  refine ⟨rfl, ?_⟩
  intro parent tag payload xref hptag hok
  obtain ⟨c, hc, hca⟩ := (attach_child_ok gedcomRegistry parent
    tag payload xref).mp hok
  rw [hptag] at hc
  rw [show permitted_children gedcomRegistry "DATE" =
    [("PHRASE", ⟨0, CardMax.one⟩), ("TIME", ⟨0, CardMax.one⟩)] from rfl] at hc
  rw [assocLookup] at hc
  by_cases h1 : "PHRASE" = tag
  · rw [if_pos h1, Option.some.injEq] at hc
    subst hc
    exact ⟨Or.inl h1.symm, cardAllows_iff.mp hca rfl⟩
  · rw [if_neg h1, assocLookup] at hc
    by_cases h2 : "TIME" = tag
    · rw [if_pos h2, Option.some.injEq] at hc
      subst hc
      exact ⟨Or.inr h2.symm, cardAllows_iff.mp hca rfl⟩
    · rw [if_neg h2, assocLookup] at hc
      exact absurd hc (by simp)

theorem date_permitted_children_witness :
    ("PHRASE" = "PHRASE" ∨ "PHRASE" = "TIME") ∧
      countTag (StructureNode.mk "DATE" "" none []).children "PHRASE" < 1 :=
  date_permitted_children.2 (.mk "DATE" "" none []) "PHRASE" "p" none rfl
    ⟨.mk "DATE" "" none [.mk "PHRASE" "p" none []], by rfl⟩

/-- C9: the supplied `_DATELIST` extension entry gives `_DATELIST` under a
`REPO` parent the cardinality `{0:M}` (min 0, unbounded max); hence
attaching a `_DATELIST` child to a `REPO` parent always succeeds and never
fails with `cardinalityExceeded`, however many `_DATELIST` children already
exist. -/
theorem datelist_repo_unbounded :
    assocLookup (permitted_children gedcomRegistry "REPO") "_DATELIST" =
      some ⟨0, CardMax.unbounded⟩ ∧
    (∀ (parent : StructureNode) (payload : String) (xref : Option String),
      parent.tag = "REPO" →
      (∃ node, attach_child gedcomRegistry parent "_DATELIST" payload xref =
        .ok node) ∧
      attach_child gedcomRegistry parent "_DATELIST" payload xref ≠
        .error (.cardinalityExceeded "_DATELIST")) := by
  refine ⟨rfl, ?_⟩
  intro parent payload xref hptag
  have hassoc : assocLookup (permitted_children gedcomRegistry parent.tag)
      "_DATELIST" = some ⟨0, CardMax.unbounded⟩ := by
    rw [hptag]; rfl
  constructor
  · exact (attach_child_ok gedcomRegistry parent "_DATELIST"
      payload xref).mpr ⟨⟨0, CardMax.unbounded⟩, hassoc, rfl⟩
  · intro hbad
    obtain ⟨c, hc, hca⟩ := (attach_child_card gedcomRegistry parent
      "_DATELIST" payload xref).mp hbad
    rw [hassoc, Option.some.injEq] at hc
    subst hc
    exact absurd hca (by simp [cardAllows])

theorem datelist_repo_unbounded_witness :
    ∃ node, attach_child gedcomRegistry
      (.mk "REPO" "" none
        [.mk "_DATELIST" "a" none [], .mk "_DATELIST" "b" none []])
      "_DATELIST" "c" none = .ok node :=
  (datelist_repo_unbounded.2
    (.mk "REPO" "" none
      [.mk "_DATELIST" "a" none [], .mk "_DATELIST" "b" none []])
    "c" none rfl).1

/-- C10: the `cal-_MYGREGORIAN` calendar defines exactly the twelve months
`_MYJAN` … `_MYDEC` and the single epoch marker `BC`; every date the
pipeline accepts under it uses one of those months and (when present) the
epoch `BC`, while a month outside the twelve or a trailing epoch other than
`BC` is an `InvalidDateError`. -/
theorem mygregorian_months_epochs :
    myGregorian.months.map GedMonth.tag =
      ["_MYJAN", "_MYFEB", "_MYMAR", "_MYAPR", "_MYMAY", "_MYJUN",
       "_MYJUL", "_MYAUG", "_MYSEP", "_MYOCT", "_MYNOV", "_MYDEC"] ∧
    myGregorian.epochs = ["BC"] ∧
    (∀ (payload : String) (time : Option String) (d : DateValue)
      (m : String), parseDateValueFull myGregorian payload time = .ok d →
      d.month = some m → m ∈ myGregorian.months.map GedMonth.tag) ∧
    (∀ (payload : String) (time : Option String) (d : DateValue)
      (e : String), parseDateValueFull myGregorian payload time = .ok d →
      d.epoch = some e → e = "BC") ∧
    parseDateValueFull myGregorian "1 JAN 2020" none =
      .error (.unknownMonth "JAN") ∧
    parseDateValueFull myGregorian "1 _MYJAN 2020 AD" none =
      .error (.badEpoch "AD") := by
  refine ⟨rfl, rfl, ?_, ?_, rfl, rfl⟩
  · intro payload time d m h hm
    obtain ⟨gm, hgm, htag⟩ := (parseDateValueFull_ok h).1 m hm
    exact htag ▸ List.mem_map_of_mem GedMonth.tag hgm
  · intro payload time d e h he
    have hmem := (parseDateValueFull_ok h).2.1 e he
    simpa [myGregorian] using hmem

theorem mygregorian_months_epochs_witness :
    "_MYJAN" ∈ myGregorian.months.map GedMonth.tag :=
  mygregorian_months_epochs.2.2.1 "1 _MYJAN 2020" none
    ⟨"_MYGREGORIAN", 2020, some "_MYJAN", some 1, none, none, .exact, none⟩
    "_MYJAN" (by rfl) rfl

end ChronoData
